import Mathlib

/-!
Verification development for the Cflat AST → LIR lowering pass.

The definitions below are a shallow embedding of the C++ lowerer
(`Lowerer` in lowerer.cpp / lowerer.hpp): the visitor methods become
pure functions threading an explicit lowering state, exceptions become
`Except`, and the translation vector is a `List` of items.  Recursion is
fuel-indexed (the C++ recursion is unbounded over the AST); running out
of fuel is a distinguished error that never occurs for adequate fuel.
-/

namespace LowerLIR

/-! ### LIR types (lir.hpp) -/

inductive LTy where
  | int
  | nil
  | strct (id : String)
  | ptr (elem : LTy)
  | array (elem : LTy)
  | fn (params : List LTy) (ret : LTy)
deriving Repr

/-! ### AST types (ast.hpp) and the type converter (Lowerer::convert_type) -/

inductive ATy where
  | int
  | nil
  | strct (name : String)
  | ptr (pointee : ATy)
  | array (elem : ATy)
  | fn (params : List ATy) (ret : ATy)
deriving Repr

mutual

def convert_type : ATy → LTy
  | .int => .int
  | .nil => .nil
  | .strct n => .strct n
  | .ptr t => .ptr (convert_type t)
  | .array t => .array (convert_type t)
  | .fn ps r => .fn (convert_types ps) (convert_type r)

def convert_types : List ATy → List LTy
  | [] => []
  | t :: ts => convert_type t :: convert_types ts

end

/-! ### Operators -/

inductive UnaryOp where
  | neg
  | not
deriving Repr, DecidableEq

inductive BinaryOp where
  | add | sub | mul | div
  | eq | ne | lt | lte | gt | gte
  | and | or
deriving Repr, DecidableEq

inductive ArithOp where
  | add | sub | mul | div
deriving Repr, DecidableEq

inductive RelOp where
  | eq | ne | lt | lte | gt | gte
deriving Repr, DecidableEq

/-- Lowerer::convert_arith_op (total on the four arithmetic operators). -/
def convert_arith_op : BinaryOp → Option ArithOp
  | .add => some .add
  | .sub => some .sub
  | .mul => some .mul
  | .div => some .div
  | _ => none

/-- Lowerer::convert_rel_op (total on the six relational operators). -/
def convert_rel_op : BinaryOp → Option RelOp
  | .eq => some .eq
  | .ne => some .ne
  | .lt => some .lt
  | .lte => some .lte
  | .gt => some .gt
  | .gte => some .gte
  | _ => none

/-! ### LIR instructions, terminals, translation-vector items (lir.hpp, lowerer.hpp) -/

inductive Inst where
  | const (lhs : String) (val : Int)
  | copy (lhs src : String)
  | arith (lhs : String) (op : ArithOp) (left right : String)
  | cmp (lhs : String) (op : RelOp) (left right : String)
  | load (lhs src : String)
  | store (dst src : String)
  | gfp (lhs src sid field : String)
  | gep (lhs src idx : String) (checked : Bool)
  | allocSingle (lhs : String) (ty : LTy)
  | allocArray (lhs amt : String) (ty : LTy)
  | call (lhs : Option String) (callee : String) (args : List String)
deriving Repr

inductive Term where
  | undef
  | jump (target : String)
  | branch (guard tt ff : String)
  | ret (val : Option String)
deriving Repr

inductive TvItem where
  | label (name : String)
  | inst (i : Inst)
  | term (t : Term)
deriving Repr

structure Block where
  label : String
  insts : List Inst
  term : Term
deriving Repr

/-! ### AST expressions, places, statements (ast.hpp) -/

mutual

inductive Exp where
  | val (p : Place)
  | num (n : Int)
  | nilE
  | select (guard tt ff : Exp)
  | unop (op : UnaryOp) (e : Exp)
  | binop (op : BinaryOp) (left right : Exp)
  | newSingle (ty : ATy)
  | newArray (ty : ATy) (amt : Exp)
  | call (callee : Exp) (args : List Exp)
deriving Repr

inductive Place where
  | id (name : String)
  | deref (e : Exp)
  | arrayAccess (arr idx : Exp)
  | fieldAccess (ptr : Exp) (field : String)
deriving Repr

end

inductive Stmt where
  | seq (ss : List Stmt)
  | assign (lhs : Place) (rhs : Exp)
  | callStmt (callee : Exp) (args : List Exp)
  | ifS (guard : Exp) (tt : Stmt) (ff : Option Stmt)
  | whileS (guard : Exp) (body : Stmt)
  | brk
  | cont
  | ret (e : Option Exp)
deriving Repr

/-! ### Name-keyed maps (std::map in the C++; association lists here,
keys kept unique by replace-or-append insertion) -/

def mlookup {α : Type} : List (String × α) → String → Option α
  | [], _ => none
  | (k, v) :: rest, key => if k = key then some v else mlookup rest key

def minsert {α : Type} : List (String × α) → String → α → List (String × α)
  | [], k, v => [(k, v)]
  | (k', v') :: rest, k, v =>
      if k' = k then (k, v) :: rest else (k', v') :: minsert rest k v

/-! ### Lowering errors (runtime_error throws in the C++) -/

inductive Err where
  | breakOutsideLoop
  | continueOutsideLoop
  | idAsPlace
  | notPtrType
  | notArrayType
  | notFnType
  | fieldOnNonStructPtr
  | unknownStructOrField
  | nullDeref
  | entryBlockMissing
  | outOfFuel
deriving Repr, DecidableEq

/-! ### Per-function lowering state (Lowerer private members) -/

structure LSt where
  locals : List (String × LTy)
  tv : List TvItem
  tmpCtr : Nat
  lblCtr : Nat
  constPos : Nat
  hdrStack : List String
  endStack : List String
deriving Repr

/-- Program-level context consulted during function lowering. -/
structure Ctx where
  structs : List (String × List (String × LTy))
  funptrs : List (String × LTy)
  externs : List (String × LTy)
deriving Repr

def pushI (i : Inst) (st : LSt) : LSt := { st with tv := st.tv ++ [.inst i] }

def pushT (t : Term) (st : LSt) : LSt := { st with tv := st.tv ++ [.term t] }

def pushL (l : String) (st : LSt) : LSt := { st with tv := st.tv ++ [.label l] }

/-- Lowerer::fresh_inner_var (no free-list reuse: the TODO is unimplemented). -/
def fresh_inner_var (ty : LTy) (st : LSt) : String × LSt :=
  let name := "_inner" ++ toString st.tmpCtr
  (name, { st with tmpCtr := st.tmpCtr + 1, locals := minsert st.locals name ty })

/-- Lowerer::fresh_non_inner_var (no free-list reuse: the TODO is unimplemented). -/
def fresh_non_inner_var (ty : LTy) (st : LSt) : String × LSt :=
  let name := "_tmp" ++ toString st.tmpCtr
  (name, { st with tmpCtr := st.tmpCtr + 1, locals := minsert st.locals name ty })

/-- Lowerer::release is a no-op (the free-list TODO is unimplemented). -/
def release (_vars : List String) (st : LSt) : LSt := st

/-- The `_const_<n>` naming scheme of Lowerer::const_var. -/
def constSuffix (n : Int) : String :=
  if n < 0 then "n" ++ toString (-n).toNat else toString n.toNat

def constName (n : Int) : String := "_const_" ++ constSuffix n

/-- Lowerer::const_var: create-on-first-use constant holders, inserted at
`const_insert_pos` which then advances. -/
def const_var (n : Int) (st : LSt) : String × LSt :=
  let name := constName n
  if (mlookup st.locals name).isSome then (name, st)
  else
    (name, { st with
      locals := minsert st.locals name .int,
      tv := st.tv.insertIdx st.constPos (.inst (.const name n)),
      constPos := st.constPos + 1 })

/-- Lowerer::new_label. -/
def new_label (pre : String) (st : LSt) : String × LSt :=
  (pre ++ toString st.lblCtr, { st with lblCtr := st.lblCtr + 1 })

/-- Lowerer::typeof_var: locals, then funptrs, then externs, then the
distinguished `__NULL`; otherwise warn and return a dummy `Int`
(the throw in the source is commented out). -/
def typeof_var (ctx : Ctx) (st : LSt) (id : String) : LTy :=
  match mlookup st.locals id with
  | some t => t
  | none =>
    match mlookup ctx.funptrs id with
    | some t => t
    | none =>
      match mlookup ctx.externs id with
      | some t => t
      | none => if id = "__NULL" then .nil else .int

/-- Lowerer::typeof_ptr_element. -/
def typeof_ptr_element : LTy → Except Err LTy
  | .ptr t => .ok t
  | _ => .error .notPtrType

/-- Lowerer::typeof_array_element. -/
def typeof_array_element : LTy → Except Err LTy
  | .array t => .ok t
  | _ => .error .notArrayType

/-- Lowerer::typeof_func_ret. -/
def typeof_func_ret : LTy → Except Err LTy
  | .fn _ r => .ok r
  | .ptr (.fn _ r) => .ok r
  | _ => .error .notFnType

/-- Modelled from the spec: `typeof_struct_field` is called by the
FieldAccess visitor but its definition is missing from the sources (only
the analogous `typeof_field` is declared); per the spec, the field type is
`structs[N].fields[f]`, failing when the struct or field is unknown. -/
def typeof_struct_field (ctx : Ctx) (sid fid : String) : Except Err LTy :=
  match mlookup ctx.structs sid with
  | none => .error .unknownStructOrField
  | some fields =>
    match mlookup fields fid with
    | none => .error .unknownStructOrField
    | some t => .ok t

/-! ### Lowering of expressions, places, statements.

`lowerExp` is the only fuel-recursive expression-level function; the
helpers below take the (already fuel-instantiated) expression lowerer as
an argument, mirroring the corresponding visitor bodies. -/

/-- Shared body of visit(AST::Select*) and the And case of
visit(AST::BinOp*) (the C++ And case is a literal copy of the Select body
with `Num(0)` as the false branch and `and_*` label prefixes). -/
def lowerSelectCore (ctx : Ctx)
    (lowExp : Exp → LSt → Except Err (String × LSt))
    (preT preF preE : String) (g ttE ffE : Exp) (st : LSt) :
    Except Err (String × LSt) :=
  let (tl, st1) := new_label preT st
  let (fl, st2) := new_label preF st1
  let (el, st3) := new_label preE st2
  match lowExp g st3 with
  | .error e => .error e
  | .ok (y, st4) =>
    let st5 := pushL tl (pushT (.branch y tl fl) st4)
    match lowExp ttE st5 with
    | .error e => .error e
    | .ok (z, st6) =>
      let (x1, st7) :=
        if z = "__NULL" then ("__NULL", st6)
        else
          let zt := typeof_var ctx st6 z
          let (xv, stA) := fresh_non_inner_var zt st6
          (xv, pushI (.copy xv z) stA)
      let st8 := pushL fl (pushT (.jump el) st7)
      match lowExp ffE st8 with
      | .error e => .error e
      | .ok (w, st9) =>
        let (x2, stB) :=
          if w = "__NULL" then (x1, st9)
          else
            if x1 = "__NULL" then
              let wt := typeof_var ctx st9 w
              let (xv, stC) := fresh_non_inner_var wt st9
              (xv, pushI (.copy xv w) stC)
            else (x1, pushI (.copy x1 w) st9)
        .ok (x2, pushL el (pushT (.jump el) stB))

/-- The Or case of visit(AST::BinOp*). -/
def lowerOrCore (lowExp : Exp → LSt → Except Err (String × LSt))
    (l r : Exp) (st : LSt) : Except Err (String × LSt) :=
  let (fl, st1) := new_label "or_false" st
  let (el, st2) := new_label "or_end" st1
  match lowExp l st2 with
  | .error e => .error e
  | .ok (x, st3) =>
    let (y, st4) := fresh_non_inner_var .int st3
    let st5 := pushL fl (pushT (.branch y el fl) (pushI (.copy y x) st4))
    match lowExp r st5 with
    | .error e => .error e
    | .ok (z, st6) =>
      .ok (y, pushL el (pushT (.jump el) (pushI (.copy y z) st6)))

/-- The arithmetic cases of visit(AST::BinOp*). -/
def lowerArithCore (lowExp : Exp → LSt → Except Err (String × LSt))
    (aop : ArithOp) (l r : Exp) (st : LSt) : Except Err (String × LSt) :=
  match lowExp l st with
  | .error e => .error e
  | .ok (a, st1) =>
    match lowExp r st1 with
    | .error e => .error e
    | .ok (b, st2) =>
      let (lhs, st3) := fresh_non_inner_var .int st2
      .ok (lhs, pushI (.arith lhs aop a b) st3)

/-- The comparison cases of visit(AST::BinOp*). -/
def lowerCmpCore (lowExp : Exp → LSt → Except Err (String × LSt))
    (rop : RelOp) (l r : Exp) (st : LSt) : Except Err (String × LSt) :=
  match lowExp l st with
  | .error e => .error e
  | .ok (a, st1) =>
    match lowExp r st1 with
    | .error e => .error e
    | .ok (b, st2) =>
      let (lhs, st3) := fresh_non_inner_var .int st2
      .ok (lhs, pushI (.cmp lhs rop a b) st3)

/-- Argument lowering of visit(AST::CallStmt*) / visit(AST::FunCall*):
the source argument list is traversed from its reverse iterator, each
result pushed at the back of `xs`. -/
def lowerArgsRev (lowExp : Exp → LSt → Except Err (String × LSt)) :
    List Exp → LSt → Except Err (List String × LSt)
  | [], st => .ok ([], st)
  | a :: rest, st =>
    match lowerArgsRev lowExp rest st with
    | .error e => .error e
    | .ok (vs, st1) =>
      match lowExp a st1 with
      | .error e => .error e
      | .ok (v, st2) => .ok (vs ++ [v], st2)

/-- Lowerer::lower_place dispatch plus the four place visitors.
visit(AST::Id*) throws: an Id must never be lowered as a place. -/
def lower_place (ctx : Ctx)
    (lowExp : Exp → LSt → Except Err (String × LSt)) :
    Place → LSt → Except Err (String × LSt)
  | .id _, _ => .error .idAsPlace
  | .deref e, st => lowExp e st
  | .arrayAccess arrE idxE, st =>
    match lowExp arrE st with
    | .error e => .error e
    | .ok (src, st1) =>
      match lowExp idxE st1 with
      | .error e => .error e
      | .ok (idx, st2) =>
        match typeof_array_element (typeof_var ctx st2 src) with
        | .error e => .error e
        | .ok ety =>
          let (lhs, st3) := fresh_inner_var (.ptr ety) st2
          .ok (lhs, pushI (.gep lhs src idx true) st3)
  | .fieldAccess pe fld, st =>
    match lowExp pe st with
    | .error e => .error e
    | .ok (src, st1) =>
      let pty := typeof_var ctx st1 src
      match typeof_ptr_element pty with
      | .error e => .error e
      | .ok sty =>
        match sty with
        | .strct sname =>
          let (sid, st2) := fresh_inner_var pty st1
          match typeof_struct_field ctx sname fld with
          | .error e => .error e
          | .ok fty =>
            let (lhs, st3) := fresh_inner_var (.ptr fty) st2
            .ok (lhs, pushI (.gfp lhs src sid fld) st3)
        | _ => .error .fieldOnNonStructPtr

/-- Lowerer::lower_exp, covering every expression visitor. -/
def lowerExp (ctx : Ctx) : Nat → Exp → LSt → Except Err (String × LSt)
  | 0, _, _ => .error .outOfFuel
  | fuel + 1, e, st =>
    match e with
    | .val p =>
      match p with
      | .id name => .ok (name, st)
      | _ =>
        match lower_place ctx (lowerExp ctx fuel) p st with
        | .error e => .error e
        | .ok (src, st1) =>
          match typeof_ptr_element (typeof_var ctx st1 src) with
          | .error e => .error e
          | .ok valTy =>
            let (lhs, st2) := fresh_non_inner_var valTy st1
            .ok (lhs, pushI (.load lhs src) st2)
    | .num n =>
      let (name, st1) := const_var n st
      .ok (name, st1)
    | .nilE => .ok ("__NULL", st)
    | .select g t f =>
      lowerSelectCore ctx (lowerExp ctx fuel) "if_true" "if_false" "if_end" g t f st
    | .unop .neg e' =>
      match e' with
      | .num n =>
        let (name, st1) := const_var (-n) st
        .ok (name, st1)
      | _ =>
        let (lhs, st1) := fresh_non_inner_var .int st
        let (z, st2) := const_var 0 st1
        match lowerExp ctx fuel e' st2 with
        | .error e => .error e
        | .ok (x, st3) => .ok (lhs, pushI (.arith lhs .sub z x) st3)
    | .unop .not e' =>
      -- the source builds BinOp(Eq, exp, Num(0)) and visits it
      lowerExp ctx fuel (.binop .eq e' (.num 0)) st
    | .binop .and l r =>
      lowerSelectCore ctx (lowerExp ctx fuel) "and_true" "and_false" "and_end" l r (.num 0) st
    | .binop .or l r => lowerOrCore (lowerExp ctx fuel) l r st
    | .binop op l r =>
      match convert_arith_op op with
      | some aop => lowerArithCore (lowerExp ctx fuel) aop l r st
      | none =>
        match convert_rel_op op with
        | some rop => lowerCmpCore (lowerExp ctx fuel) rop l r st
        | none => .error .notFnType
    | .newSingle ty =>
      let tau := convert_type ty
      let (lhs, st1) := fresh_non_inner_var (.ptr tau) st
      .ok (lhs, pushI (.allocSingle lhs tau) st1)
    | .newArray ty amt =>
      let tau := convert_type ty
      let (lhs, st1) := fresh_non_inner_var (.array tau) st
      match lowerExp ctx fuel amt st1 with
      | .error e => .error e
      | .ok (x, st2) => .ok (lhs, pushI (.allocArray lhs x tau) st2)
    | .call c args =>
      match lowerArgsRev (lowerExp ctx fuel) args st with
      | .error e => .error e
      | .ok (xs, st1) =>
        match lowerExp ctx fuel c st1 with
        | .error e => .error e
        | .ok (f, st2) =>
          match typeof_func_ret (typeof_var ctx st2 f) with
          | .error e => .error e
          | .ok rty =>
            let (lhs, st3) := fresh_non_inner_var rty st2
            .ok (lhs, pushI (.call (some lhs) f xs) st3)

/-- Sequencing of visit(AST::Stmts*). -/
def lowerSeq (lowStmt : Stmt → LSt → Except Err LSt) :
    List Stmt → LSt → Except Err LSt
  | [], st => .ok st
  | s :: ss, st =>
    match lowStmt s st with
    | .error e => .error e
    | .ok st1 => lowerSeq lowStmt ss st1

/-- Lowerer::lower_stmt, covering every statement visitor. -/
def lowerStmt (ctx : Ctx) : Nat → Stmt → LSt → Except Err LSt
  | 0, _, _ => .error .outOfFuel
  | fuel + 1, s, st =>
    match s with
    | .seq ss => lowerSeq (lowerStmt ctx fuel) ss st
    | .assign lhs rhs =>
      match lhs with
      | .id name =>
        match lowerExp ctx fuel rhs st with
        | .error e => .error e
        | .ok (x, st1) => .ok (pushI (.copy name x) st1)
      | _ =>
        match lower_place ctx (lowerExp ctx fuel) lhs st with
        | .error e => .error e
        | .ok (x, st1) =>
          match lowerExp ctx fuel rhs st1 with
          | .error e => .error e
          | .ok (y, st2) => .ok (pushI (.store x y) st2)
    | .callStmt c args =>
      match lowerArgsRev (lowerExp ctx fuel) args st with
      | .error e => .error e
      | .ok (xs, st1) =>
        match lowerExp ctx fuel c st1 with
        | .error e => .error e
        | .ok (f, st2) => .ok (pushI (.call none f xs) st2)
    | .ifS g ttS ffS =>
      let (tl, st1) := new_label "if_true" st
      let (fl, st2) := new_label "if_false" st1
      let (el, st3) := new_label "if_end" st2
      match lowerExp ctx fuel g st3 with
      | .error e => .error e
      | .ok (x, st4) =>
        let st5 := pushL tl (pushT (.branch x tl fl) st4)
        match lowerStmt ctx fuel ttS st5 with
        | .error e => .error e
        | .ok st6 =>
          let st7 := pushL fl (pushT (.jump el) st6)
          match
            (match ffS with
             | none => (.ok st7 : Except Err LSt)
             | some ffStmt => lowerStmt ctx fuel ffStmt st7) with
          | .error e => .error e
          | .ok st8 => .ok (pushL el (pushT (.jump el) st8))
    | .whileS g body =>
      let (hl, st1) := new_label "loop_hdr" st
      let (bl, st2) := new_label "loop_body" st1
      let (el, st3) := new_label "loop_end" st2
      let st4 := { st3 with hdrStack := hl :: st3.hdrStack,
                            endStack := el :: st3.endStack }
      let st5 := pushL hl (pushT (.jump hl) st4)
      match lowerExp ctx fuel g st5 with
      | .error e => .error e
      | .ok (x, st6) =>
        let st7 := pushL bl (pushT (.branch x bl el) st6)
        match lowerStmt ctx fuel body st7 with
        | .error e => .error e
        | .ok st8 =>
          let st9 := pushL el (pushT (.jump hl) st8)
          .ok { st9 with hdrStack := st9.hdrStack.tail,
                         endStack := st9.endStack.tail }
    | .brk =>
      match st.endStack with
      | [] => .error .breakOutsideLoop
      | l :: _ => .ok (pushT (.jump l) st)
    | .cont =>
      match st.hdrStack with
      | [] => .error .continueOutsideLoop
      | l :: _ => .ok (pushT (.jump l) st)
    | .ret oe =>
      match oe with
      | some e =>
        match lowerExp ctx fuel e st with
        | .error er => .error er
        | .ok (x, st1) => .ok (pushT (.ret (some x)) st1)
      | none => .ok (pushT (.ret none) st)

/-! ### End-of-function implicit return (visit(AST::FunctionDef*), step 4)

The C++ scans `m_tv` backwards: labels are skipped; the first `Terminal`
found decides (`Ret` → present, other terminal → absent); hitting an
instruction also stops with absent. -/

def scanRet : List TvItem → Bool
  | [] => false
  | .label _ :: rest => scanRet rest
  | .term (.ret _) :: _ => true
  | .term _ :: _ => false
  | .inst _ :: _ => false

def hasRetScan (tv : List TvItem) : Bool := scanRet tv.reverse

/-! ### CFG construction (Lowerer::build_cfg)

Note the source ends with `TODO: Remove unreachable basic blocks`:
no pruning is performed. -/

def touch (body : List (String × Block)) (l : String) : List (String × Block) :=
  if (mlookup body l).isSome then body else body ++ [(l, ⟨l, [], .undef⟩)]

def appendInst : List (String × Block) → String → Inst → List (String × Block)
  | [], _, _ => []
  | (k, b) :: rest, l, i =>
    if k = l then (k, { b with insts := b.insts ++ [i] }) :: appendInst rest l i
    else (k, b) :: appendInst rest l i

def setTerm : List (String × Block) → String → Term → List (String × Block)
  | [], _, _ => []
  | (k, b) :: rest, l, t =>
    if k = l then (k, { b with term := t }) :: setTerm rest l t
    else (k, b) :: setTerm rest l t

def cfgGo (entry : String) :
    List TvItem → Option String → List (String × Block) →
    Except Err (List (String × Block))
  | [], _, body => .ok body
  | .label l :: rest, _, body => cfgGo entry rest (some l) (touch body l)
  | .inst i :: rest, some l, body => cfgGo entry rest (some l) (appendInst body l i)
  | .inst i :: rest, none, body =>
    if (mlookup body entry).isSome then
      cfgGo entry rest (some entry) (appendInst body entry i)
    else .error .entryBlockMissing
  | .term t :: rest, some l, body => cfgGo entry rest none (setTerm body l t)
  | .term _ :: rest, none, body => cfgGo entry rest none body

def build_cfg (fname : String) (tv : List TvItem) :
    Except Err (List (String × Block)) :=
  cfgGo (fname ++ "_entry") tv none []

/-! ### Function lowering pipeline (visit(AST::FunctionDef*)) -/

def initSt (fname : String) (locals0 : List (String × LTy)) : LSt :=
  ⟨locals0, [.label (fname ++ "_entry")], 0, 0, 1, [], []⟩

def lowerFunction (ctx : Ctx) (fuel : Nat) (fname : String) (body : Stmt)
    (locals0 : List (String × LTy)) :
    Except Err (List TvItem × List (String × Block) × List (String × LTy)) :=
  match lowerStmt ctx fuel body (initSt fname locals0) with
  | .error e => .error e
  | .ok st1 =>
    let tv := if hasRetScan st1.tv then st1.tv else st1.tv ++ [.term (.ret none)]
    match build_cfg fname tv with
    | .error e => .error e
    | .ok cfg => .ok (tv, cfg, st1.locals)

/-! ### Program shell builder (visit(AST::Program*)) -/

structure AFun where
  name : String
  params : List (String × ATy)
  rettyp : ATy
  locals : List (String × ATy)
  body : Stmt
deriving Repr

structure AProg where
  structs : List (String × List (String × ATy))
  externs : List (String × (List ATy × ATy))
  functions : List AFun
deriving Repr

/-- The funptr type built for one internal function. -/
def funptrType (f : AFun) : LTy :=
  .ptr (.fn (convert_types (f.params.map Prod.snd)) (convert_type f.rettyp))

/-- The `funptrs` table produced by step 3 of visit(AST::Program*):
every internal function except `main`. -/
def buildFunptrs (fns : List AFun) : List (String × LTy) :=
  fns.foldl (fun m f => if f.name = "main" then m else minsert m f.name (funptrType f)) []

/-! ### Spec-side definitions (used only to state claims) -/

def isLabelItem : TvItem → Bool
  | .label _ => true
  | _ => false

def isRetItem : TvItem → Bool
  | .term (.ret _) => true
  | _ => false

def isConstItem : TvItem → Bool
  | .inst (.const _ _) => true
  | _ => false

def isConstInst : Inst → Bool
  | .const _ _ => true
  | _ => false

def headIsRet : List TvItem → Bool
  | .term (.ret _) :: _ => true
  | _ => false

/-- The translation vector "effectively ends in a Ret": its last item,
after discarding any trailing labels, is a `Ret` terminator. -/
def endsInRetSpec (tv : List TvItem) : Bool :=
  headIsRet (tv.reverse.dropWhile isLabelItem)

/-- Left-to-right sequential lowering of a list of expressions,
results collected in traversal order. -/
def lowerListLTR (lowExp : Exp → LSt → Except Err (String × LSt)) :
    List Exp → LSt → Except Err (List String × LSt)
  | [], st => .ok ([], st)
  | a :: rest, st =>
    match lowExp a st with
    | .error e => .error e
    | .ok (v, st1) =>
      match lowerListLTR lowExp rest st1 with
      | .error e => .error e
      | .ok (vs, st2) => .ok (v :: vs, st2)

/-- Sequential composition of two `lowerListLTR` runs (used to relate the
source's reverse-iterator argument loop to left-to-right lowering). -/
def lowerListLTR2 (F : Exp → LSt → Except Err (String × LSt))
    (l1 l2 : List Exp) (st : LSt) : Except Err (List String × LSt) :=
  match lowerListLTR F l1 st with
  | .error e => .error e
  | .ok (vs, st1) =>
    match lowerListLTR F l2 st1 with
    | .error e => .error e
    | .ok (ws, st2) => .ok (vs ++ ws, st2)

/-- Modelled from the spec: the successors of a block are the labels its
terminator targets (`Jump`/`Branch`); used to state reachability, whose
pruning is absent from the sources (the `build_cfg` TODO). -/
def blockSuccs (b : Block) : List String :=
  match b.term with
  | .jump t => [t]
  | .branch _ a c => [a, c]
  | _ => []

/-- Modelled from the spec: one BFS expansion step over the block map. -/
def reachStep (body : List (String × Block)) (cur : List String) : List String :=
  cur ++ ((cur.map (fun l =>
      match mlookup body l with
      | some b => blockSuccs b
      | none => [])).flatten.filter (fun x => !cur.contains x))

/-- Modelled from the spec: the set of labels reachable from `entry` by
following `Jump`/`Branch` targets (|body| BFS rounds reach the fixpoint). -/
def reachableFrom (body : List (String × Block)) (entry : String) : List String :=
  (reachStep body)^[body.length] [entry]

/-! ### The AST node mutation performed by visit(AST::UnOp*)

The C++ `Not` case executes `std::move(n->exp)` to build the temporary
`BinOp(Eq, exp, Num(0))` node it visits, leaving the visited node's
`exp` member moved-from (null once the temporary is destroyed).  The
owning pointer is modelled as an `Option Exp`. -/

structure UnOpNode where
  op : UnaryOp
  exp : Option Exp

/-- visit(AST::UnOp*), with the node returned alongside the result to
expose the effect on its fields. -/
def visitUnOpNode (ctx : Ctx) (fuel : Nat) (n : UnOpNode) (st : LSt) :
    (Except Err (String × LSt)) × UnOpNode :=
  match n.op, n.exp with
  | .neg, some e => (lowerExp ctx fuel (.unop .neg e) st, n)
  | .not, some e => (lowerExp ctx fuel (.binop .eq e (.num 0)) st, { n with exp := none })
  | _, none => (.error .nullDeref, n)

/-! ### The constant-block invariant (claim C7)

Throughout a function's lowering, the translation vector is the entry
label followed by the `Const` instructions inserted so far (one per
distinct literal, at `const_insert_pos` which trails them), followed by a
`Const`-free tail. -/

def ConstInv (entry : String) (init : List (String × LTy)) (st : LSt) : Prop :=
  ∃ cs : List (String × Int), ∃ rest : List TvItem,
    st.tv = .label entry :: cs.map (fun p => TvItem.inst (.const p.1 p.2)) ++ rest ∧
    (∀ it ∈ rest, isConstItem it = false) ∧
    st.constPos = 1 + cs.length ∧
    (cs.map Prod.fst).Nodup ∧
    (∀ p ∈ cs, p.1 = constName p.2 ∧ mlookup st.locals p.1 = some .int) ∧
    (∀ k, (mlookup st.locals k).isSome →
      (mlookup init k).isSome ∨ k ∈ cs.map Prod.fst ∨
      (∃ s, k = "_tmp" ++ s) ∨ (∃ s, k = "_inner" ++ s))

/-! ### Concrete inputs used by the evaluation theorems -/

def ctx0 : Ctx := ⟨[], [], []⟩

/-- `if (x) { return 1; } else { return 2; }` — lowers to a CFG whose
`if_end2` block has no predecessor. -/
def c2body : Stmt :=
  .seq [.ifS (.val (.id "x")) (.seq [.ret (some (.num 1))])
          (some (.seq [.ret (some (.num 2))]))]

/-- A program context declaring `struct S { f: int }`. -/
def c4ctx : Ctx := ⟨[("S", [("f", .int)])], [], []⟩

/-- `return 0; x = 1;` — a `Ret` occurs mid-vector and an instruction
follows it. -/
def c5stmts : List Stmt := [.ret (some (.num 0)), .assign (.id "x") (.num 1)]

/-- Internal functions `main` and `foo(p: int) -> int`. -/
def c8funs : List AFun :=
  [⟨"main", [], .int, [], .seq []⟩,
   ⟨"foo", [("p", .int)], .int, [], .seq []⟩]

/-- `x = 7; y = 7 + 3;` — the literal 7 is used twice. -/
def c7stmts : List Stmt :=
  [.assign (.id "x") (.num 7),
   .assign (.id "y") (.binop .add (.num 7) (.num 3))]

/-! ### Result predicates for the preservation lemmas: a lowering result
either succeeds preserving the constant-block invariant, or fails with an
error other than Id-lowered-as-place. -/

def ResOK (entry : String) (init : List (String × LTy)) (st : LSt) :
    Except Err (String × LSt) → Prop
  | .ok (_, st') => ConstInv entry init st → ConstInv entry init st'
  | .error er => er ≠ Err.idAsPlace

def ResOKA (entry : String) (init : List (String × LTy)) (st : LSt) :
    Except Err (List String × LSt) → Prop
  | .ok (_, st') => ConstInv entry init st → ConstInv entry init st'
  | .error er => er ≠ Err.idAsPlace

def ResOKS (entry : String) (init : List (String × LTy)) (st : LSt) :
    Except Err LSt → Prop
  | .ok st' => ConstInv entry init st → ConstInv entry init st'
  | .error er => er ≠ Err.idAsPlace

/-! ## Lemmas about the map primitives -/

theorem mlookup_minsert_self {α : Type} (m : List (String × α)) (k : String) (v : α) :
    mlookup (minsert m k v) k = some v := by
  induction m with
  | nil => simp [minsert, mlookup]
  | cons p rest ih =>
    by_cases h : p.1 = k
    · simp [minsert, h, mlookup]
    · simp [minsert, h, mlookup, ih]

theorem mlookup_minsert_ne {α : Type} (m : List (String × α)) (k k' : String) (v : α)
    (h : k' ≠ k) : mlookup (minsert m k v) k' = mlookup m k' := by
  have hne : ¬ k = k' := fun he => h he.symm
  induction m with
  | nil => simp [minsert, mlookup, hne]
  | cons p rest ih =>
    obtain ⟨k0, v0⟩ := p
    by_cases hp : k0 = k
    · subst hp
      simp [minsert, mlookup, hne]
    · by_cases hk : k0 = k'
      · subst hk
        simp [minsert, mlookup, hp]
      · simp [minsert, mlookup, hp, hk, ih]

theorem mlookup_minsert_isSome {α : Type} (m : List (String × α)) (k k' : String) (v : α)
    (h : (mlookup (minsert m k v) k').isSome) :
    k' = k ∨ (mlookup m k').isSome := by
  by_cases hk : k' = k
  · exact Or.inl hk
  · right; rwa [mlookup_minsert_ne m k k' v hk] at h

/-! ## Lemmas about names -/

theorem string_append_ne_of_data_ne (a b c d : String)
    (h : (a ++ b).data ≠ (c ++ d).data) : a ++ b ≠ c ++ d := fun he => h (he ▸ rfl)

theorem tmp_ne_const (a b : String) : "_tmp" ++ a ≠ "_const_" ++ b := by
  intro h
  have h2 : ("_tmp" ++ a).data = ("_const_" ++ b).data := h ▸ rfl
  rw [String.data_append, String.data_append] at h2
  have ha : "_tmp".data = ['_', 't', 'm', 'p'] := rfl
  have hb : "_const_".data = ['_', 'c', 'o', 'n', 's', 't', '_'] := rfl
  rw [ha, hb] at h2
  simp at h2

theorem inner_ne_const (a b : String) : "_inner" ++ a ≠ "_const_" ++ b := by
  intro h
  have h2 : ("_inner" ++ a).data = ("_const_" ++ b).data := h ▸ rfl
  rw [String.data_append, String.data_append] at h2
  have ha : "_inner".data = ['_', 'i', 'n', 'n', 'e', 'r'] := rfl
  have hb : "_const_".data = ['_', 'c', 'o', 'n', 's', 't', '_'] := rfl
  rw [ha, hb] at h2
  simp at h2

theorem constName_eq_append (n : Int) : constName n = "_const_" ++ constSuffix n := rfl

/-! ## Inserting at the end of a prefix -/

theorem insertIdx_length_append {α : Type} (l r : List α) (a : α) :
    (l ++ r).insertIdx l.length a = l ++ a :: r := by
  induction l with
  | nil => rfl
  | cons x xs ih => simpa [List.insertIdx] using ih

/-! ## The backward Ret scan equals the "ends in Ret" reading -/

theorem scanRet_eq_headIsRet_dropWhile (l : List TvItem) :
    scanRet l = headIsRet (l.dropWhile isLabelItem) := by
  induction l with
  | nil => rfl
  | cons it rest ih =>
    cases it with
    | label _ => simpa [scanRet, List.dropWhile, isLabelItem] using ih
    | inst _ => simp [scanRet, List.dropWhile, isLabelItem, headIsRet]
    | term t => cases t <;> simp [scanRet, List.dropWhile, isLabelItem, headIsRet]

theorem hasRetScan_eq_endsInRetSpec (tv : List TvItem) :
    hasRetScan tv = endsInRetSpec tv := by
  unfold hasRetScan endsInRetSpec
  exact scanRet_eq_headIsRet_dropWhile tv.reverse

/-! ## Right-to-left argument lowering in terms of sequential lowering -/

theorem lowerListLTR_append (F : Exp → LSt → Except Err (String × LSt))
    (l1 l2 : List Exp) (st : LSt) :
    lowerListLTR F (l1 ++ l2) st = lowerListLTR2 F l1 l2 st := by
  induction l1 generalizing st with
  | nil =>
    simp only [List.nil_append, lowerListLTR2, lowerListLTR]
    cases h : lowerListLTR F l2 st with
    | error e => rfl
    | ok r => obtain ⟨ws, st2⟩ := r; simp
  | cons a l1 ih =>
    simp only [List.cons_append, lowerListLTR, lowerListLTR2]
    cases hg : F a st with
    | error e => rfl
    | ok r =>
      obtain ⟨v, st1⟩ := r
      dsimp only
      simp only [List.append_eq]
      rw [ih]
      simp only [lowerListLTR2]
      cases h1 : lowerListLTR F l1 st1 with
      | error e => rfl
      | ok r2 =>
        obtain ⟨vs, st2⟩ := r2
        dsimp only
        cases h2 : lowerListLTR F l2 st2 with
        | error e => rfl
        | ok r3 => obtain ⟨ws, st3⟩ := r3; dsimp only; rw [List.cons_append]

theorem lowerArgsRev_eq_LTR_reverse (F : Exp → LSt → Except Err (String × LSt))
    (as : List Exp) (st : LSt) :
    lowerArgsRev F as st = lowerListLTR F as.reverse st := by
  induction as generalizing st with
  | nil => rfl
  | cons a rest ih =>
    rw [List.reverse_cons, lowerListLTR_append]
    simp only [lowerArgsRev, lowerListLTR2, ih]
    cases h1 : lowerListLTR F rest.reverse st with
    | error e => rfl
    | ok r =>
      obtain ⟨vs, st1⟩ := r
      dsimp only
      simp only [lowerListLTR]
      cases h2 : F a st1 with
      | error e => rfl
      | ok r2 => obtain ⟨v, st2⟩ := r2; dsimp only

/-! ## Claim theorems -/

/-- C3: `typeof(v)` consults locals, funptrs, externs and maps `__NULL`
to `Nil`, but on a miss the lowerer does NOT fail with
`UnknownIdentifier`: the throw is commented out and a dummy `Int` is
returned (after a stderr warning). -/
theorem c3_typeof_returns_dummy_int :
    typeof_var ctx0 (initSt "main" []) "mystery" = .int ∧
    typeof_var ctx0 (initSt "main" []) "__NULL" = .nil :=
  ⟨rfl, rfl⟩

/-- C4: lowering `s.f` with `s : &S` mints TWO fresh inner temporaries
(`_inner0` typed `&struct S` and `_inner1` typed `&int`) and emits
`Gfp(_inner1, s, "_inner0", f)` — the struct-id operand is the fresh
temporary's name, not the struct name `S`. -/
theorem c4_gfp_struct_id_is_fresh_temp :
    ∃ st', lower_place c4ctx (lowerExp c4ctx 10)
        (.fieldAccess (.val (.id "s")) "f")
        (initSt "main" [("s", .ptr (.strct "S"))]) = .ok ("_inner1", st') ∧
      st'.tv = [.label "main_entry", .inst (.gfp "_inner1" "s" "_inner0" "f")] ∧
      mlookup st'.locals "_inner0" = some (.ptr (.strct "S")) ∧
      mlookup st'.locals "_inner1" = some (.ptr .int) ∧
      ("_inner0" : String) ≠ "S" := by
  refine ⟨_, rfl, rfl, rfl, rfl, by decide⟩

/-- C1 (counterexample): for the call statement `f(1, 2)` the emitted
`Call` stores the argument list `["_const_2", "_const_1"]` — the reverse
of source order, not source order. -/
theorem c1_counterexample_args_not_in_source_order :
    ∃ st', lowerStmt ctx0 20 (.callStmt (.val (.id "f")) [.num 1, .num 2])
        (initSt "main" []) = .ok st' ∧
      st'.tv = [.label "main_entry", .inst (.const "_const_2" 2),
                .inst (.const "_const_1" 1),
                .inst (.call none "f" ["_const_2", "_const_1"])] ∧
      (["_const_2", "_const_1"] : List String) ≠ ["_const_1", "_const_2"] := by
  refine ⟨_, rfl, rfl, by decide⟩

/-- C5 (counterexample): for `return 0; x = 1;` the translation vector
already contains a `Ret` terminator, yet the implicit `Ret(none)` is
still appended, because the backward scan stops at the trailing `Copy`
instruction — refuting "appended iff no Ret exists anywhere in tv". -/
theorem c5_counterexample_ret_exists_yet_appended :
    ∃ st1 cfg locs,
      lowerStmt ctx0 20 (.seq c5stmts) (initSt "main" [("x", .int)]) = .ok st1 ∧
      st1.tv.any isRetItem = true ∧
      lowerFunction ctx0 20 "main" (.seq c5stmts) [("x", .int)] =
        .ok (st1.tv ++ [.term (.ret none)], cfg, locs) := by
  refine ⟨_, _, _, rfl, rfl, rfl⟩

/-- C9: the `Not` case of visit(AST::UnOp*) moves the node's operand into
the temporary `BinOp(Eq, ·, Num 0)` it visits, so after lowering the
node's `exp` field is null — the AST is not read-only, and re-visiting
the same node dereferences null. The `Neg` case leaves the node intact. -/
theorem c9_unop_not_mutates_ast :
    (visitUnOpNode ctx0 10 ⟨.not, some (.num 0)⟩ (initSt "main" [])).2 =
      ⟨.not, none⟩ ∧
    (⟨.not, none⟩ : UnOpNode) ≠ ⟨.not, some (.num 0)⟩ ∧
    (visitUnOpNode ctx0 10 ⟨.not, none⟩ (initSt "main" [])).1 = .error .nullDeref ∧
    (∀ e st, (visitUnOpNode ctx0 10 ⟨.neg, some e⟩ st).2 = ⟨.neg, some e⟩) := by
  refine ⟨rfl, ?_, rfl, fun e st => rfl⟩
  intro h
  injection h with h1 h2
  exact Option.noConfusion h2

/-- C6: `break` emits exactly one `Jump` to the top of the loop-end stack
and fails with the break-outside-loop error on an empty stack, leaving
the state untouched; `continue` does the same with the loop-header stack. -/
theorem c6_break_continue (ctx : Ctx) (fuel : Nat) (st : LSt) :
    (st.endStack = [] →
      lowerStmt ctx (fuel + 1) .brk st = .error .breakOutsideLoop) ∧
    (∀ l rest, st.endStack = l :: rest →
      lowerStmt ctx (fuel + 1) .brk st = .ok (pushT (.jump l) st)) ∧
    (st.hdrStack = [] →
      lowerStmt ctx (fuel + 1) .cont st = .error .continueOutsideLoop) ∧
    (∀ l rest, st.hdrStack = l :: rest →
      lowerStmt ctx (fuel + 1) .cont st = .ok (pushT (.jump l) st)) := by
  refine ⟨fun h => ?_, fun l rest h => ?_, fun h => ?_, fun l rest h => ?_⟩ <;>
    simp [lowerStmt, h]

/-- C2: the CFG builder performs NO reachability pruning (the source ends
in `TODO: Remove unreachable basic blocks`): for
`if (x) { return 1; } else { return 2; }`, the `if_end2` block survives
in the emitted body although it is unreachable from `main_entry`. -/
theorem c2_unreachable_block_not_deleted :
    ∃ tv cfg locs,
      lowerFunction ctx0 30 "main" c2body [("x", .int)] = .ok (tv, cfg, locs) ∧
      (mlookup cfg "if_end2").isSome = true ∧
      "if_end2" ∉ reachableFrom cfg "main_entry" := by
  refine ⟨_, _, _, rfl, rfl, by decide⟩

/-- C5 (amended): the implicit `Ret(none)` is appended at end of function
lowering iff the translation vector does not effectively end in a `Ret`
terminator — i.e. iff its last non-label item (trailing labels skipped)
is not a `Ret`; a `Ret` elsewhere in the vector does not suppress it. -/
theorem c5_implicit_ret_iff_tail_not_ret (ctx : Ctx) (fuel : Nat) (fname : String)
    (body : Stmt) (locals0 : List (String × LTy)) (tv : List TvItem)
    (cfg : List (String × Block)) (locs : List (String × LTy))
    (h : lowerFunction ctx fuel fname body locals0 = .ok (tv, cfg, locs)) :
    ∃ st1, lowerStmt ctx fuel body (initSt fname locals0) = .ok st1 ∧
      (endsInRetSpec st1.tv = true → tv = st1.tv) ∧
      (endsInRetSpec st1.tv = false → tv = st1.tv ++ [.term (.ret none)]) := by
  unfold lowerFunction at h
  cases hst : lowerStmt ctx fuel body (initSt fname locals0) with
  | error e => rw [hst] at h; exact absurd h (by simp)
  | ok st1 =>
    rw [hst] at h
    dsimp only at h
    rw [hasRetScan_eq_endsInRetSpec] at h
    refine ⟨st1, rfl, ?_, ?_⟩ <;> intro hret <;> rw [hret] at h <;>
      simp only [if_true, if_false, Bool.true_eq, Bool.false_eq_true,
        ite_true, ite_false, reduceIte] at h
    · cases hc : build_cfg fname st1.tv with
      | error e => rw [hc] at h; exact absurd h (by simp)
      | ok cfg' =>
        rw [hc] at h
        dsimp only at h
        exact congrArg (fun r => r.1) (Except.ok.inj h).symm
    · cases hc : build_cfg fname (st1.tv ++ [.term (.ret none)]) with
      | error e => rw [hc] at h; exact absurd h (by simp)
      | ok cfg' =>
        rw [hc] at h
        dsimp only at h
        exact congrArg (fun r => r.1) (Except.ok.inj h).symm

theorem c5_implicit_ret_iff_tail_not_ret_witness :
    ∃ st1, lowerStmt ctx0 5 (.seq [.ret (some (.num 7))]) (initSt "m" []) = .ok st1 ∧
      (endsInRetSpec st1.tv = true → [TvItem.label "m_entry",
          .inst (.const "_const_7" 7), .term (.ret (some "_const_7"))] = st1.tv) ∧
      (endsInRetSpec st1.tv = false → [TvItem.label "m_entry",
          .inst (.const "_const_7" 7), .term (.ret (some "_const_7"))] =
        st1.tv ++ [.term (.ret none)]) :=
  c5_implicit_ret_iff_tail_not_ret ctx0 5 "m" (.seq [.ret (some (.num 7))]) [] _ _ _ rfl

/-- C1 (amended): arguments of a call (statement or expression) are
lowered right-to-left, and the argument list stored in the emitted `Call`
is exactly the list of those results in right-to-left evaluation order —
the left-to-right lowering of the reversed source list — not in source
order. -/
theorem c1_call_args_stored_in_rtl_order (ctx : Ctx) (fuel : Nat) (c : Exp)
    (args : List Exp) (st : LSt) :
    (∀ st', lowerStmt ctx (fuel + 1) (.callStmt c args) st = .ok st' →
      ∃ xs st1 f st2,
        lowerListLTR (lowerExp ctx fuel) args.reverse st = .ok (xs, st1) ∧
        lowerExp ctx fuel c st1 = .ok (f, st2) ∧
        st' = pushI (.call none f xs) st2) ∧
    (∀ v st', lowerExp ctx (fuel + 1) (.call c args) st = .ok (v, st') →
      ∃ xs st1 f st2 rty,
        lowerListLTR (lowerExp ctx fuel) args.reverse st = .ok (xs, st1) ∧
        lowerExp ctx fuel c st1 = .ok (f, st2) ∧
        typeof_func_ret (typeof_var ctx st2 f) = .ok rty ∧
        v = (fresh_non_inner_var rty st2).1 ∧
        st' = pushI (.call (some v) f xs) (fresh_non_inner_var rty st2).2) := by
  constructor
  · intro st' h
    simp only [lowerStmt] at h
    rw [lowerArgsRev_eq_LTR_reverse] at h
    cases h1 : lowerListLTR (lowerExp ctx fuel) args.reverse st with
    | error e => rw [h1] at h; exact absurd h (by simp)
    | ok r =>
      obtain ⟨xs, st1⟩ := r
      rw [h1] at h
      dsimp only at h
      cases h2 : lowerExp ctx fuel c st1 with
      | error e => rw [h2] at h; exact absurd h (by simp)
      | ok r2 =>
        obtain ⟨f, st2⟩ := r2
        rw [h2] at h
        dsimp only at h
        exact ⟨xs, st1, f, st2, rfl, h2, (Except.ok.inj h).symm⟩
  · intro v st' h
    simp only [lowerExp] at h
    rw [lowerArgsRev_eq_LTR_reverse] at h
    cases h1 : lowerListLTR (lowerExp ctx fuel) args.reverse st with
    | error e => rw [h1] at h; exact absurd h (by simp)
    | ok r =>
      obtain ⟨xs, st1⟩ := r
      rw [h1] at h
      dsimp only at h
      cases h2 : lowerExp ctx fuel c st1 with
      | error e => rw [h2] at h; exact absurd h (by simp)
      | ok r2 =>
        obtain ⟨f, st2⟩ := r2
        rw [h2] at h
        dsimp only at h
        cases h3 : typeof_func_ret (typeof_var ctx st2 f) with
        | error e => rw [h3] at h; exact absurd h (by simp)
        | ok rty =>
          rw [h3] at h
          dsimp only at h
          cases hf : fresh_non_inner_var rty st2 with
          | mk lhs st3 =>
            rw [hf] at h
            dsimp only at h
            obtain ⟨hv, hst⟩ := Prod.mk.inj (Except.ok.inj h)
            refine ⟨xs, st1, f, st2, rty, rfl, h2, h3, ?_, ?_⟩
            · rw [hf, ← hv]
            · rw [hf, ← hv, ← hst]

theorem c1_call_args_stored_in_rtl_order_witness :
    ∃ xs st1 f st2,
      lowerListLTR (lowerExp ctx0 19) ([Exp.num 1, Exp.num 2].reverse)
          (initSt "main" []) = .ok (xs, st1) ∧
      lowerExp ctx0 19 (.val (.id "f")) st1 = .ok (f, st2) ∧
      pushI (.call none "f" ["_const_2", "_const_1"])
          { initSt "main" [] with
            locals := [("_const_2", .int), ("_const_1", .int)],
            tv := [.label "main_entry", .inst (.const "_const_2" 2),
                   .inst (.const "_const_1" 1)],
            constPos := 3 } = pushI (.call none f xs) st2 :=
  (c1_call_args_stored_in_rtl_order ctx0 19 (.val (.id "f")) [.num 1, .num 2]
    (initSt "main" [])).1 _ rfl

theorem c6_break_continue_witness :
    lowerStmt ctx0 5 .brk (initSt "m" []) = .error .breakOutsideLoop ∧
    lowerStmt ctx0 5 .brk { initSt "m" [] with endStack := ["loop_end2"] } =
      .ok (pushT (.jump "loop_end2") { initSt "m" [] with endStack := ["loop_end2"] }) ∧
    lowerStmt ctx0 5 .cont (initSt "m" []) = .error .continueOutsideLoop ∧
    lowerStmt ctx0 5 .cont { initSt "m" [] with hdrStack := ["loop_hdr1"] } =
      .ok (pushT (.jump "loop_hdr1") { initSt "m" [] with hdrStack := ["loop_hdr1"] }) :=
  ⟨(c6_break_continue ctx0 4 (initSt "m" [])).1 rfl,
   (c6_break_continue ctx0 4 _).2.1 "loop_end2" [] rfl,
   (c6_break_continue ctx0 4 (initSt "m" [])).2.2.1 rfl,
   (c6_break_continue ctx0 4 _).2.2.2 "loop_hdr1" [] rfl⟩

/-! ## Preservation of the constant-block invariant by the primitives -/

theorem ConstInv_congr (entry : String) (init : List (String × LTy))
    {st st' : LSt} (h : ConstInv entry init st) (htv : st'.tv = st.tv)
    (hpos : st'.constPos = st.constPos) (hloc : st'.locals = st.locals) :
    ConstInv entry init st' := by
  obtain ⟨cs, rest, h1, h2, h3, h4, h5, h6⟩ := h
  refine ⟨cs, rest, ?_, h2, ?_, h4, ?_, ?_⟩
  · rw [htv, h1]
  · rw [hpos, h3]
  · intro p hp; rw [hloc]; exact h5 p hp
  · intro k hk; rw [hloc] at hk; exact h6 k hk

theorem ConstInv_push (entry : String) (init : List (String × LTy))
    {st : LSt} (it : TvItem) (h : ConstInv entry init st)
    (hit : isConstItem it = false) :
    ConstInv entry init { st with tv := st.tv ++ [it] } := by
  obtain ⟨cs, rest, h1, h2, h3, h4, h5, h6⟩ := h
  refine ⟨cs, rest ++ [it], ?_, ?_, h3, h4, h5, h6⟩
  · simp only [h1, List.cons_append, List.append_assoc]
  · intro it' hmem
    rcases List.mem_append.1 hmem with hm | hm
    · exact h2 it' hm
    · rwa [List.mem_singleton.1 hm]

theorem isConstItem_inst (i : Inst) : isConstItem (.inst i) = isConstInst i := by
  cases i <;> rfl

theorem ConstInv_pushI (entry : String) (init : List (String × LTy))
    {st : LSt} (i : Inst) (h : ConstInv entry init st)
    (hi : isConstInst i = false) : ConstInv entry init (pushI i st) :=
  ConstInv_push entry init (.inst i) h (by rw [isConstItem_inst]; exact hi)

theorem ConstInv_pushT (entry : String) (init : List (String × LTy))
    {st : LSt} (t : Term) (h : ConstInv entry init st) :
    ConstInv entry init (pushT t st) :=
  ConstInv_push entry init (.term t) h rfl

theorem ConstInv_pushL (entry : String) (init : List (String × LTy))
    {st : LSt} (l : String) (h : ConstInv entry init st) :
    ConstInv entry init (pushL l st) :=
  ConstInv_push entry init (.label l) h rfl

theorem ConstInv_fresh_non_inner (entry : String) (init : List (String × LTy))
    {st : LSt} (ty : LTy) (h : ConstInv entry init st) :
    ConstInv entry init (fresh_non_inner_var ty st).2 := by
  obtain ⟨cs, rest, h1, h2, h3, h4, h5, h6⟩ := h
  refine ⟨cs, rest, h1, h2, h3, h4, ?_, ?_⟩
  · intro p hp
    obtain ⟨hn, hl⟩ := h5 p hp
    refine ⟨hn, ?_⟩
    show mlookup (minsert st.locals ("_tmp" ++ toString st.tmpCtr) ty) p.1 = some .int
    rw [mlookup_minsert_ne]
    · exact hl
    · rw [hn, constName_eq_append]
      exact fun he => tmp_ne_const (toString st.tmpCtr) (constSuffix p.2) he.symm
  · intro k hk
    rcases mlookup_minsert_isSome st.locals _ k ty hk with hke | hko
    · exact Or.inr (Or.inr (Or.inl ⟨toString st.tmpCtr, hke⟩))
    · exact h6 k hko

theorem ConstInv_fresh_inner (entry : String) (init : List (String × LTy))
    {st : LSt} (ty : LTy) (h : ConstInv entry init st) :
    ConstInv entry init (fresh_inner_var ty st).2 := by
  obtain ⟨cs, rest, h1, h2, h3, h4, h5, h6⟩ := h
  refine ⟨cs, rest, h1, h2, h3, h4, ?_, ?_⟩
  · intro p hp
    obtain ⟨hn, hl⟩ := h5 p hp
    refine ⟨hn, ?_⟩
    show mlookup (minsert st.locals ("_inner" ++ toString st.tmpCtr) ty) p.1 = some .int
    rw [mlookup_minsert_ne]
    · exact hl
    · rw [hn, constName_eq_append]
      exact fun he => inner_ne_const (toString st.tmpCtr) (constSuffix p.2) he.symm
  · intro k hk
    rcases mlookup_minsert_isSome st.locals _ k ty hk with hke | hko
    · exact Or.inr (Or.inr (Or.inr ⟨toString st.tmpCtr, hke⟩))
    · exact h6 k hko

theorem ConstInv_new_label (entry : String) (init : List (String × LTy))
    {st : LSt} (pre : String) (h : ConstInv entry init st) :
    ConstInv entry init (new_label pre st).2 :=
  ConstInv_congr entry init h rfl rfl rfl

theorem ConstInv_const_var (entry : String) (init : List (String × LTy))
    {st : LSt} (n : Int) (h : ConstInv entry init st) :
    ConstInv entry init (const_var n st).2 := by
  obtain ⟨cs, rest, h1, h2, h3, h4, h5, h6⟩ := h
  by_cases hl : (mlookup st.locals (constName n)).isSome
  · have : const_var n st = (constName n, st) := by
      unfold const_var; rw [if_pos hl]
    rw [this]
    exact ⟨cs, rest, h1, h2, h3, h4, h5, h6⟩
  · have hstep : (const_var n st).2 =
        { st with
          locals := minsert st.locals (constName n) .int,
          tv := st.tv.insertIdx st.constPos (.inst (.const (constName n) n)),
          constPos := st.constPos + 1 } := by
      unfold const_var; rw [if_neg hl]
    rw [hstep]
    have hnotin : constName n ∉ cs.map Prod.fst := by
      intro hmem
      obtain ⟨p, hp, hpe⟩ := List.mem_map.1 hmem
      obtain ⟨_, hlk⟩ := h5 p hp
      rw [hpe] at hlk
      exact hl (by rw [hlk]; rfl)
    refine ⟨cs ++ [(constName n, n)], rest, ?_, h2, ?_, ?_, ?_, ?_⟩
    · show st.tv.insertIdx st.constPos (.inst (.const (constName n) n)) = _
      rw [h1, h3, List.cons_append]
      have hlen : 1 + cs.length =
          (cs.map (fun p => TvItem.inst (.const p.1 p.2))).length + 1 := by
        simp [Nat.add_comm]
      rw [hlen, List.insertIdx_succ_cons, insertIdx_length_append]
      simp
    · show st.constPos + 1 = 1 + (cs ++ [(constName n, n)]).length
      rw [h3]
      simp only [List.length_append, List.length_cons, List.length_nil]
      omega
    · rw [List.map_append]
      rw [List.nodup_append]
      refine ⟨h4, List.nodup_singleton _, ?_⟩
      intro a ha hb
      simp only [List.map_cons, List.map_nil, List.mem_singleton] at hb
      rw [hb] at ha
      exact hnotin ha
    · intro p hp
      rcases List.mem_append.1 hp with hm | hm
      · obtain ⟨hn, hlk⟩ := h5 p hm
        refine ⟨hn, ?_⟩
        show mlookup (minsert st.locals (constName n) .int) p.1 = some .int
        rw [mlookup_minsert_ne]
        · exact hlk
        · intro he
          rw [he] at hlk
          exact hl (by rw [hlk]; rfl)
      · rw [List.mem_singleton.1 hm]
        exact ⟨rfl, mlookup_minsert_self _ _ _⟩
    · intro k hk
      rcases mlookup_minsert_isSome st.locals _ k .int hk with hke | hko
      · refine Or.inr (Or.inl ?_)
        rw [List.map_append, hke]
        simp
      · rcases h6 k hko with hc | hc | hc
        · exact Or.inl hc
        · refine Or.inr (Or.inl ?_)
          rw [List.map_append]
          exact List.mem_append.2 (Or.inl hc)
        · exact Or.inr (Or.inr hc)

/-! ## Preservation through the lowering helpers -/

theorem resok_arith (entry : String) (init : List (String × LTy))
    (F : Exp → LSt → Except Err (String × LSt))
    (hF : ∀ e st, ResOK entry init st (F e st))
    (aop : ArithOp) (l r : Exp) (st : LSt) :
    ResOK entry init st (lowerArithCore F aop l r st) := by
  unfold lowerArithCore
  cases h1 : F l st with
  | error e => have hl := hF l st; rw [h1] at hl; exact hl
  | ok r1 =>
    obtain ⟨a, st1⟩ := r1
    dsimp only
    cases h2 : F r st1 with
    | error e => have hr := hF r st1; rw [h2] at hr; exact hr
    | ok r2 =>
      obtain ⟨b, st2⟩ := r2
      dsimp only
      cases hf : fresh_non_inner_var .int st2 with
      | mk lhs st3 =>
        dsimp only
        intro hinv
        have h1' := hF l st; rw [h1] at h1'
        have h2' := hF r st1; rw [h2] at h2'
        have h3 : ConstInv entry init st3 := by
          have := ConstInv_fresh_non_inner entry init LTy.int (h2' (h1' hinv))
          rw [hf] at this
          exact this
        exact ConstInv_pushI entry init _ h3 rfl

theorem resok_cmp (entry : String) (init : List (String × LTy))
    (F : Exp → LSt → Except Err (String × LSt))
    (hF : ∀ e st, ResOK entry init st (F e st))
    (rop : RelOp) (l r : Exp) (st : LSt) :
    ResOK entry init st (lowerCmpCore F rop l r st) := by
  unfold lowerCmpCore
  cases h1 : F l st with
  | error e => have hl := hF l st; rw [h1] at hl; exact hl
  | ok r1 =>
    obtain ⟨a, st1⟩ := r1
    dsimp only
    cases h2 : F r st1 with
    | error e => have hr := hF r st1; rw [h2] at hr; exact hr
    | ok r2 =>
      obtain ⟨b, st2⟩ := r2
      dsimp only
      cases hf : fresh_non_inner_var .int st2 with
      | mk lhs st3 =>
        dsimp only
        intro hinv
        have h1' := hF l st; rw [h1] at h1'
        have h2' := hF r st1; rw [h2] at h2'
        have h3 : ConstInv entry init st3 := by
          have := ConstInv_fresh_non_inner entry init LTy.int (h2' (h1' hinv))
          rw [hf] at this
          exact this
        exact ConstInv_pushI entry init _ h3 rfl

theorem resok_err {entry : String} {init : List (String × LTy)}
    {F : Exp → LSt → Except Err (String × LSt)}
    (hF : ∀ e st, ResOK entry init st (F e st))
    {a : Exp} {s : LSt} {er : Err} (h : F a s = .error er) :
    er ≠ Err.idAsPlace := by
  have := hF a s; rw [h] at this; exact this

theorem resok_okt {entry : String} {init : List (String × LTy)}
    {F : Exp → LSt → Except Err (String × LSt)}
    (hF : ∀ e st, ResOK entry init st (F e st))
    {a : Exp} {s : LSt} {v : String} {s' : LSt} (h : F a s = .ok (v, s')) :
    ConstInv entry init s → ConstInv entry init s' := by
  have := hF a s; rw [h] at this; exact this

theorem ConstInv_new_label_pair {entry : String} {init : List (String × LTy)}
    {st st' : LSt} {pre l : String} (h : new_label pre st = (l, st'))
    (hinv : ConstInv entry init st) : ConstInv entry init st' := by
  have := ConstInv_new_label entry init pre hinv; rw [h] at this; exact this

theorem ConstInv_fresh_non_inner_pair {entry : String} {init : List (String × LTy)}
    {st st' : LSt} {ty : LTy} {v : String} (h : fresh_non_inner_var ty st = (v, st'))
    (hinv : ConstInv entry init st) : ConstInv entry init st' := by
  have := ConstInv_fresh_non_inner entry init ty hinv; rw [h] at this; exact this

theorem ConstInv_fresh_inner_pair {entry : String} {init : List (String × LTy)}
    {st st' : LSt} {ty : LTy} {v : String} (h : fresh_inner_var ty st = (v, st'))
    (hinv : ConstInv entry init st) : ConstInv entry init st' := by
  have := ConstInv_fresh_inner entry init ty hinv; rw [h] at this; exact this

theorem ConstInv_const_var_pair {entry : String} {init : List (String × LTy)}
    {st st' : LSt} {n : Int} {v : String} (h : const_var n st = (v, st'))
    (hinv : ConstInv entry init st) : ConstInv entry init st' := by
  have := ConstInv_const_var entry init n hinv; rw [h] at this; exact this

theorem resok_or (entry : String) (init : List (String × LTy))
    (F : Exp → LSt → Except Err (String × LSt))
    (hF : ∀ e st, ResOK entry init st (F e st))
    (l r : Exp) (st : LSt) :
    ResOK entry init st (lowerOrCore F l r st) := by
  unfold lowerOrCore
  split
  next fl st1 hnl1 =>
    split
    next el st2 hnl2 =>
      split
      next e heq => exact resok_err hF heq
      next x st3 heq =>
        split
        next y st4 hf =>
          dsimp only
          split
          next e heq2 => exact resok_err hF heq2
          next z st6 heq2 =>
            intro hinv
            have hi2 := ConstInv_new_label_pair hnl2 (ConstInv_new_label_pair hnl1 hinv)
            have hi3 := resok_okt hF heq hi2
            have hi4 := ConstInv_fresh_non_inner_pair hf hi3
            have hi6 := resok_okt hF heq2
              (ConstInv_pushL entry init _ (ConstInv_pushT entry init _
                (ConstInv_pushI entry init _ hi4 rfl)))
            exact ConstInv_pushL entry init _ (ConstInv_pushT entry init _
              (ConstInv_pushI entry init _ hi6 rfl))

theorem ConstInv_select_if1 {entry : String} {init : List (String × LTy)}
    (ctx : Ctx) (z : String) (st6 : LSt)
    (hinv : ConstInv entry init st6) :
    ConstInv entry init
      (if z = "__NULL" then ("__NULL", st6)
       else
         let zt := typeof_var ctx st6 z
         let (xv, stA) := fresh_non_inner_var zt st6
         (xv, pushI (.copy xv z) stA)).2 := by
  by_cases hz : z = "__NULL"
  · rw [if_pos hz]; exact hinv
  · rw [if_neg hz]
    exact ConstInv_pushI entry init _
      (ConstInv_fresh_non_inner entry init _ hinv) rfl

theorem ConstInv_select_if2 {entry : String} {init : List (String × LTy)}
    (ctx : Ctx) (w x1 : String) (st9 : LSt)
    (hinv : ConstInv entry init st9) :
    ConstInv entry init
      (if w = "__NULL" then (x1, st9)
       else
         if x1 = "__NULL" then
           let wt := typeof_var ctx st9 w
           let (xv, stC) := fresh_non_inner_var wt st9
           (xv, pushI (.copy xv w) stC)
         else (x1, pushI (.copy x1 w) st9)).2 := by
  by_cases hw : w = "__NULL"
  · rw [if_pos hw]; exact hinv
  · rw [if_neg hw]
    by_cases hx : x1 = "__NULL"
    · rw [if_pos hx]
      exact ConstInv_pushI entry init _
        (ConstInv_fresh_non_inner entry init _ hinv) rfl
    · rw [if_neg hx]
      exact ConstInv_pushI entry init _ hinv rfl

theorem resok_select (entry : String) (init : List (String × LTy)) (ctx : Ctx)
    (F : Exp → LSt → Except Err (String × LSt))
    (hF : ∀ e st, ResOK entry init st (F e st))
    (preT preF preE : String) (g ttE ffE : Exp) (st : LSt) :
    ResOK entry init st (lowerSelectCore ctx F preT preF preE g ttE ffE st) := by
  unfold lowerSelectCore
  split
  next tl st1 hnl1 =>
    split
    next fl st2 hnl2 =>
      split
      next el st3 hnl3 =>
        split
        next e heqg => exact resok_err hF heqg
        next y st4 heqg =>
          dsimp only
          split
          next e heqt => exact resok_err hF heqt
          next z st6 heqt =>
            split
            next e heqf => exact resok_err hF heqf
            next w st9 heqf =>
              intro hinv
              have hi3 : ConstInv entry init st3 :=
                ConstInv_new_label_pair hnl3 (ConstInv_new_label_pair hnl2
                  (ConstInv_new_label_pair hnl1 hinv))
              have hi4 := resok_okt hF heqg hi3
              have hi5 : ConstInv entry init
                  (pushL tl (pushT (.branch y tl fl) st4)) :=
                ConstInv_pushL entry init _ (ConstInv_pushT entry init _ hi4)
              have hi6 := resok_okt hF heqt hi5
              have hi8 := ConstInv_pushL entry init fl (ConstInv_pushT entry init
                (.jump el) (ConstInv_select_if1 ctx z st6 hi6))
              have hi9 := resok_okt hF heqf hi8
              exact ConstInv_pushL entry init _ (ConstInv_pushT entry init _
                (ConstInv_select_if2 ctx w _ st9 hi9))

theorem typeof_ptr_element_error {t : LTy} {er : Err}
    (h : typeof_ptr_element t = .error er) : er = .notPtrType := by
  cases t <;> (try exact Except.noConfusion h) <;> exact (Except.error.inj h).symm

theorem typeof_array_element_error {t : LTy} {er : Err}
    (h : typeof_array_element t = .error er) : er = .notArrayType := by
  cases t <;> (try exact Except.noConfusion h) <;> exact (Except.error.inj h).symm

theorem typeof_func_ret_error {t : LTy} {er : Err}
    (h : typeof_func_ret t = .error er) : er = .notFnType := by
  cases t with
  | ptr e =>
    cases e <;> (try exact Except.noConfusion h) <;> exact (Except.error.inj h).symm
  | _ => first
    | exact Except.noConfusion h
    | exact (Except.error.inj h).symm

theorem typeof_struct_field_error {ctx : Ctx} {sid fid : String} {er : Err}
    (h : typeof_struct_field ctx sid fid = .error er) :
    er = .unknownStructOrField := by
  unfold typeof_struct_field at h
  split at h
  · exact (Except.error.inj h).symm
  · split at h
    · exact (Except.error.inj h).symm
    · exact Except.noConfusion h

theorem resok_args (entry : String) (init : List (String × LTy))
    (F : Exp → LSt → Except Err (String × LSt))
    (hF : ∀ e st, ResOK entry init st (F e st)) :
    ∀ as st, ResOKA entry init st (lowerArgsRev F as st) := by
  intro as
  induction as with
  | nil => intro st; exact fun h => h
  | cons a rest ih =>
    intro st
    unfold lowerArgsRev
    split
    next e heq => have := ih st; rw [heq] at this; exact this
    next vs st1 heq =>
      split
      next e heq2 => exact resok_err hF heq2
      next v st2 heq2 =>
        intro hinv
        have h1 := ih st
        rw [heq] at h1
        exact resok_okt hF heq2 (h1 hinv)

theorem resok_place (entry : String) (init : List (String × LTy)) (ctx : Ctx)
    (F : Exp → LSt → Except Err (String × LSt))
    (hF : ∀ e st, ResOK entry init st (F e st))
    (p : Place) (st : LSt) (hp : ∀ nm, p ≠ .id nm) :
    ResOK entry init st (lower_place ctx F p st) := by
  cases p with
  | id nm => exact absurd rfl (hp nm)
  | deref e => exact hF e st
  | arrayAccess arrE idxE =>
    simp only [lower_place]
    split
    next e heq => exact resok_err hF heq
    next src st1 heq =>
      split
      next e heq2 => exact resok_err hF heq2
      next idx st2 heq2 =>
        split
        next e heq3 =>
          rw [typeof_array_element_error heq3]
          intro hc
          cases hc
        next ety heq3 =>
          intro hinv
          exact ConstInv_pushI entry init _
            (ConstInv_fresh_inner entry init _
              (resok_okt hF heq2 (resok_okt hF heq hinv))) rfl
  | fieldAccess pe fld =>
    simp only [lower_place]
    split
    next e heq => exact resok_err hF heq
    next src st1 heq =>
      split
      next e heq2 =>
        rw [typeof_ptr_element_error heq2]
        intro hc
        cases hc
      next sty heq2 =>
        split
        next sname =>
          split
          next e heq3 =>
            rw [typeof_struct_field_error heq3]
            intro hc
            cases hc
          next fty heq3 =>
            intro hinv
            exact ConstInv_pushI entry init _
              (ConstInv_fresh_inner entry init _
                (ConstInv_fresh_inner entry init _
                  (resok_okt hF heq hinv))) rfl
        next hne =>
          intro hc
          cases hc

theorem resok_val_body (entry : String) (init : List (String × LTy)) (ctx : Ctx)
    (F : Exp → LSt → Except Err (String × LSt))
    (hF : ∀ e st, ResOK entry init st (F e st))
    (p : Place) (st : LSt) (hp : ∀ nm, p ≠ .id nm) :
    ResOK entry init st
      (match lower_place ctx F p st with
       | .error e => .error e
       | .ok (src, st1) =>
         match typeof_ptr_element (typeof_var ctx st1 src) with
         | .error e => .error e
         | .ok valTy =>
           let (lhs, st2) := fresh_non_inner_var valTy st1
           .ok (lhs, pushI (.load lhs src) st2)) := by
  have hpl := resok_place entry init ctx F hF p st hp
  split
  next e heq => rw [heq] at hpl; exact hpl
  next src st1 heq =>
    rw [heq] at hpl
    split
    next e heq2 =>
      rw [typeof_ptr_element_error heq2]
      intro hc
      cases hc
    next valTy heq2 =>
      intro hinv
      exact ConstInv_pushI entry init _
        (ConstInv_fresh_non_inner entry init _ (hpl hinv)) rfl

theorem resok_neg_body (entry : String) (init : List (String × LTy))
    (F : Exp → LSt → Except Err (String × LSt))
    (hF : ∀ e st, ResOK entry init st (F e st)) (e' : Exp) (st : LSt) :
    ResOK entry init st
      (let (lhs, st1) := fresh_non_inner_var .int st
       let (z, st2) := const_var 0 st1
       match F e' st2 with
       | .error e => .error e
       | .ok (x, st3) => .ok (lhs, pushI (.arith lhs .sub z x) st3)) := by
  split
  next lhs st1 hfr =>
    split
    next z st2 hcv =>
      split
      next e heq => exact resok_err hF heq
      next x st3 heq =>
        intro hinv
        exact ConstInv_pushI entry init _
          (resok_okt hF heq (ConstInv_const_var_pair hcv
            (ConstInv_fresh_non_inner_pair hfr hinv))) rfl

theorem lowerExp_resok (entry : String) (init : List (String × LTy)) (ctx : Ctx) :
    ∀ fuel e st, ResOK entry init st (lowerExp ctx fuel e st) := by
  intro fuel
  induction fuel with
  | zero =>
    intro e st
    show Err.outOfFuel ≠ Err.idAsPlace
    decide
  | succ fuel ih =>
    intro e st
    cases e with
    | val p =>
      cases p with
      | id nm => exact fun h => h
      | deref e' =>
        simp only [lowerExp]
        exact resok_val_body entry init ctx _ ih _ st
          (fun nm h => Place.noConfusion h)
      | arrayAccess a i =>
        simp only [lowerExp]
        exact resok_val_body entry init ctx _ ih _ st
          (fun nm h => Place.noConfusion h)
      | fieldAccess pe fld =>
        simp only [lowerExp]
        exact resok_val_body entry init ctx _ ih _ st
          (fun nm h => Place.noConfusion h)
    | num n =>
      simp only [lowerExp]
      intro hinv
      exact ConstInv_const_var entry init n hinv
    | nilE => exact fun h => h
    | select g t f =>
      simp only [lowerExp]
      exact resok_select entry init ctx _ ih _ _ _ g t f st
    | unop op e' =>
      cases op with
      | neg =>
        cases e' with
        | num n =>
          simp only [lowerExp]
          intro hinv
          exact ConstInv_const_var entry init (-n) hinv
        | val p =>
          simp only [lowerExp]
          exact resok_neg_body entry init _ ih _ st
        | nilE =>
          simp only [lowerExp]
          exact resok_neg_body entry init _ ih _ st
        | select g t f =>
          simp only [lowerExp]
          exact resok_neg_body entry init _ ih _ st
        | unop op2 e2 =>
          simp only [lowerExp]
          exact resok_neg_body entry init _ ih _ st
        | binop op2 l r =>
          simp only [lowerExp]
          exact resok_neg_body entry init _ ih _ st
        | newSingle ty =>
          simp only [lowerExp]
          exact resok_neg_body entry init _ ih _ st
        | newArray ty amt =>
          simp only [lowerExp]
          exact resok_neg_body entry init _ ih _ st
        | call c args =>
          simp only [lowerExp]
          exact resok_neg_body entry init _ ih _ st
      | not =>
        simp only [lowerExp]
        exact ih _ st
    | binop op l r =>
      cases op with
      | and =>
        simp only [lowerExp]
        exact resok_select entry init ctx _ ih _ _ _ l r (.num 0) st
      | or =>
        simp only [lowerExp]
        exact resok_or entry init _ ih l r st
      | add =>
        simp only [lowerExp, convert_arith_op]
        exact resok_arith entry init _ ih .add l r st
      | sub =>
        simp only [lowerExp, convert_arith_op]
        exact resok_arith entry init _ ih .sub l r st
      | mul =>
        simp only [lowerExp, convert_arith_op]
        exact resok_arith entry init _ ih .mul l r st
      | div =>
        simp only [lowerExp, convert_arith_op]
        exact resok_arith entry init _ ih .div l r st
      | eq =>
        simp only [lowerExp, convert_arith_op, convert_rel_op]
        exact resok_cmp entry init _ ih .eq l r st
      | ne =>
        simp only [lowerExp, convert_arith_op, convert_rel_op]
        exact resok_cmp entry init _ ih .ne l r st
      | lt =>
        simp only [lowerExp, convert_arith_op, convert_rel_op]
        exact resok_cmp entry init _ ih .lt l r st
      | lte =>
        simp only [lowerExp, convert_arith_op, convert_rel_op]
        exact resok_cmp entry init _ ih .lte l r st
      | gt =>
        simp only [lowerExp, convert_arith_op, convert_rel_op]
        exact resok_cmp entry init _ ih .gt l r st
      | gte =>
        simp only [lowerExp, convert_arith_op, convert_rel_op]
        exact resok_cmp entry init _ ih .gte l r st
    | newSingle ty =>
      simp only [lowerExp]
      intro hinv
      exact ConstInv_pushI entry init _
        (ConstInv_fresh_non_inner entry init _ hinv) rfl
    | newArray ty amt =>
      simp only [lowerExp]
      split
      next e heq => exact resok_err ih heq
      next x st2 heq =>
        intro hinv
        exact ConstInv_pushI entry init _ (resok_okt ih heq
          (ConstInv_fresh_non_inner entry init _ hinv)) rfl
    | call c args =>
      simp only [lowerExp]
      split
      next e heq =>
        have := resok_args entry init _ ih args st
        rw [heq] at this
        exact this
      next xs st1 heq =>
        split
        next e heq2 => exact resok_err ih heq2
        next f st2 heq2 =>
          split
          next e heq3 =>
            rw [typeof_func_ret_error heq3]
            intro hc
            cases hc
          next rty heq3 =>
            intro hinv
            have h1 := resok_args entry init _ ih args st
            rw [heq] at h1
            exact ConstInv_pushI entry init _
              (ConstInv_fresh_non_inner entry init _
                (resok_okt ih heq2 (h1 hinv))) rfl

theorem resoks_err {entry : String} {init : List (String × LTy)}
    {G : Stmt → LSt → Except Err LSt}
    (hG : ∀ s st, ResOKS entry init st (G s st))
    {a : Stmt} {s : LSt} {er : Err} (h : G a s = .error er) :
    er ≠ Err.idAsPlace := by
  have := hG a s; rw [h] at this; exact this

theorem resoks_okt {entry : String} {init : List (String × LTy)}
    {G : Stmt → LSt → Except Err LSt}
    (hG : ∀ s st, ResOKS entry init st (G s st))
    {a : Stmt} {s s' : LSt} (h : G a s = .ok s') :
    ConstInv entry init s → ConstInv entry init s' := by
  have := hG a s; rw [h] at this; exact this

theorem resok_seq (entry : String) (init : List (String × LTy))
    (G : Stmt → LSt → Except Err LSt)
    (hG : ∀ s st, ResOKS entry init st (G s st)) :
    ∀ ss st, ResOKS entry init st (lowerSeq G ss st) := by
  intro ss
  induction ss with
  | nil => intro st; exact fun h => h
  | cons s ss ih =>
    intro st
    unfold lowerSeq
    split
    next e heq => have := hG s st; rw [heq] at this; exact this
    next st1 heq =>
      cases hr : lowerSeq G ss st1 with
      | error e => have := ih st1; rw [hr] at this; exact this
      | ok st2 =>
        intro hinv
        have h1 := hG s st
        rw [heq] at h1
        have h2 := ih st1
        rw [hr] at h2
        exact h2 (h1 hinv)

theorem resok_assign_body (entry : String) (init : List (String × LTy)) (ctx : Ctx)
    (F : Exp → LSt → Except Err (String × LSt))
    (hF : ∀ e st, ResOK entry init st (F e st))
    (p : Place) (rhs : Exp) (st : LSt) (hp : ∀ nm, p ≠ .id nm) :
    ResOKS entry init st
      (match lower_place ctx F p st with
       | .error e => .error e
       | .ok (x, st1) =>
         match F rhs st1 with
         | .error e => .error e
         | .ok (y, st2) => .ok (pushI (.store x y) st2)) := by
  have hpl := resok_place entry init ctx F hF p st hp
  split
  next e heq => rw [heq] at hpl; exact hpl
  next x st1 heq =>
    rw [heq] at hpl
    split
    next e heq2 => exact resok_err hF heq2
    next y st2 heq2 =>
      intro hinv
      exact ConstInv_pushI entry init _ (resok_okt hF heq2 (hpl hinv)) rfl

theorem lowerStmt_resok (entry : String) (init : List (String × LTy)) (ctx : Ctx) :
    ∀ fuel s st, ResOKS entry init st (lowerStmt ctx fuel s st) := by
  intro fuel
  induction fuel with
  | zero =>
    intro s st
    show Err.outOfFuel ≠ Err.idAsPlace
    decide
  | succ fuel ih =>
    have ihe := lowerExp_resok entry init ctx fuel
    intro s st
    cases s with
    | seq ss =>
      simp only [lowerStmt]
      exact resok_seq entry init _ ih ss st
    | assign lhs rhs =>
      cases lhs with
      | id name =>
        simp only [lowerStmt]
        split
        next e heq => exact resok_err ihe heq
        next x st1 heq =>
          intro hinv
          exact ConstInv_pushI entry init _ (resok_okt ihe heq hinv) rfl
      | deref e' =>
        simp only [lowerStmt]
        exact resok_assign_body entry init ctx _ ihe _ rhs st
          (fun nm h => Place.noConfusion h)
      | arrayAccess a i =>
        simp only [lowerStmt]
        exact resok_assign_body entry init ctx _ ihe _ rhs st
          (fun nm h => Place.noConfusion h)
      | fieldAccess pe fld =>
        simp only [lowerStmt]
        exact resok_assign_body entry init ctx _ ihe _ rhs st
          (fun nm h => Place.noConfusion h)
    | callStmt c args =>
      simp only [lowerStmt]
      split
      next e heq =>
        have := resok_args entry init _ ihe args st
        rw [heq] at this
        exact this
      next xs st1 heq =>
        split
        next e heq2 => exact resok_err ihe heq2
        next f st2 heq2 =>
          intro hinv
          have h1 := resok_args entry init _ ihe args st
          rw [heq] at h1
          exact ConstInv_pushI entry init _
            (resok_okt ihe heq2 (h1 hinv)) rfl
    | ifS g ttS ffS =>
      cases ffS with
      | none =>
        simp only [lowerStmt]
        split
        next e heq => exact resok_err ihe heq
        next x st4 heq =>
          split
          next e heq2 => exact resoks_err ih heq2
          next st6 heq2 =>
            intro hinv
            have hi3 := ConstInv_new_label entry init "if_end"
              (ConstInv_new_label entry init "if_false"
                (ConstInv_new_label entry init "if_true" hinv))
            exact ConstInv_pushL entry init _ (ConstInv_pushT entry init _
              (ConstInv_pushL entry init _ (ConstInv_pushT entry init _
                (resoks_okt ih heq2 (ConstInv_pushL entry init _
                  (ConstInv_pushT entry init _ (resok_okt ihe heq hi3)))))))
      | some ffs =>
        simp only [lowerStmt]
        split
        next e heq => exact resok_err ihe heq
        next x st4 heq =>
          split
          next e heq2 => exact resoks_err ih heq2
          next st6 heq2 =>
            split
            next e heq3 => exact resoks_err ih heq3
            next st8 heq3 =>
              intro hinv
              have hi3 := ConstInv_new_label entry init "if_end"
                (ConstInv_new_label entry init "if_false"
                  (ConstInv_new_label entry init "if_true" hinv))
              exact ConstInv_pushL entry init _ (ConstInv_pushT entry init _
                (resoks_okt ih heq3 (ConstInv_pushL entry init _
                  (ConstInv_pushT entry init _
                    (resoks_okt ih heq2 (ConstInv_pushL entry init _
                      (ConstInv_pushT entry init _
                        (resok_okt ihe heq hi3))))))))
    | whileS g body =>
      simp only [lowerStmt]
      split
      next e heq => exact resok_err ihe heq
      next x st6 heq =>
        split
        next e heq2 => exact resoks_err ih heq2
        next st8 heq2 =>
          intro hinv
          have hi3 := ConstInv_new_label entry init "loop_end"
            (ConstInv_new_label entry init "loop_body"
              (ConstInv_new_label entry init "loop_hdr" hinv))
          exact ConstInv_congr entry init
            (ConstInv_pushL entry init _ (ConstInv_pushT entry init _
              (resoks_okt ih heq2 (ConstInv_pushL entry init _
                (ConstInv_pushT entry init _
                  (resok_okt ihe heq (ConstInv_pushL entry init _
                    (ConstInv_pushT entry init _
                      (ConstInv_congr entry init hi3 rfl rfl rfl)))))))))
            rfl rfl rfl
    | brk =>
      simp only [lowerStmt]
      split
      next =>
        show Err.breakOutsideLoop ≠ Err.idAsPlace
        decide
      next l rest =>
        intro hinv
        exact ConstInv_pushT entry init _ hinv
    | cont =>
      simp only [lowerStmt]
      split
      next =>
        show Err.continueOutsideLoop ≠ Err.idAsPlace
        decide
      next l rest =>
        intro hinv
        exact ConstInv_pushT entry init _ hinv
    | ret oe =>
      cases oe with
      | none =>
        simp only [lowerStmt]
        intro hinv
        exact ConstInv_pushT entry init _ hinv
      | some e' =>
        simp only [lowerStmt]
        split
        next e heq => exact resok_err ihe heq
        next x st1 heq =>
          intro hinv
          exact ConstInv_pushT entry init _ (resok_okt ihe heq hinv)

/-! ## Looking up blocks through the CFG-builder primitives -/

theorem mlookup_append_left {α : Type} (m t : List (String × α)) (k : String)
    (v : α) (h : mlookup m k = some v) : mlookup (m ++ t) k = some v := by
  induction m with
  | nil => exact absurd h (by simp [mlookup])
  | cons p rest ih =>
    obtain ⟨k0, v0⟩ := p
    by_cases hk : k0 = k
    · simp only [mlookup, hk, if_pos rfl] at h ⊢
      simpa [List.cons_append, mlookup] using h
    · simp only [List.cons_append, mlookup, hk, if_false] at h ⊢
      exact ih h

theorem mlookup_isSome_mem {α : Type} (m : List (String × α)) (k : String)
    (h : (mlookup m k).isSome) : ∃ v, (k, v) ∈ m := by
  induction m with
  | nil => simp [mlookup] at h
  | cons p rest ih =>
    obtain ⟨k0, v0⟩ := p
    by_cases hk : k0 = k
    · subst hk
      exact ⟨v0, List.mem_cons_self _ _⟩
    · simp only [mlookup, hk, if_false] at h
      obtain ⟨v, hv⟩ := ih h
      exact ⟨v, List.mem_cons_of_mem _ hv⟩

theorem mlookup_appendInst_self (body : List (String × Block)) (l : String)
    (i : Inst) (bb : Block) (h : mlookup body l = some bb) :
    mlookup (appendInst body l i) l = some { bb with insts := bb.insts ++ [i] } := by
  induction body with
  | nil => exact absurd h (by simp [mlookup])
  | cons p rest ih =>
    obtain ⟨k0, b0⟩ := p
    by_cases hk : k0 = l
    · subst hk
      simp only [mlookup, if_pos rfl] at h
      cases h
      simp [appendInst, mlookup]
    · simp only [mlookup, hk, if_false] at h
      simp only [appendInst, if_neg hk, mlookup, hk, if_false]
      exact ih h

theorem mlookup_appendInst_ne (body : List (String × Block)) (l : String)
    (i : Inst) (k : String) (h : k ≠ l) :
    mlookup (appendInst body l i) k = mlookup body k := by
  induction body with
  | nil => rfl
  | cons p rest ih =>
    obtain ⟨k0, b0⟩ := p
    by_cases hk0 : k0 = l
    · subst hk0
      have hne : ¬ k0 = k := fun he => h (he.symm ▸ rfl)
      simp only [appendInst, if_pos rfl, mlookup, hne, if_false]
      exact ih
    · simp only [appendInst, if_neg hk0, mlookup]
      by_cases hkk : k0 = k
      · simp [hkk]
      · simp only [hkk, if_false]
        exact ih

theorem mlookup_setTerm_self (body : List (String × Block)) (l : String)
    (t : Term) (bb : Block) (h : mlookup body l = some bb) :
    mlookup (setTerm body l t) l = some { bb with term := t } := by
  induction body with
  | nil => exact absurd h (by simp [mlookup])
  | cons p rest ih =>
    obtain ⟨k0, b0⟩ := p
    by_cases hk : k0 = l
    · subst hk
      simp only [mlookup, if_pos rfl] at h
      cases h
      simp [setTerm, mlookup]
    · simp only [mlookup, hk, if_false] at h
      simp only [setTerm, if_neg hk, mlookup, hk, if_false]
      exact ih h

theorem mlookup_setTerm_ne (body : List (String × Block)) (l : String)
    (t : Term) (k : String) (h : k ≠ l) :
    mlookup (setTerm body l t) k = mlookup body k := by
  induction body with
  | nil => rfl
  | cons p rest ih =>
    obtain ⟨k0, b0⟩ := p
    by_cases hk0 : k0 = l
    · subst hk0
      have hne : ¬ k0 = k := fun he => h (he.symm ▸ rfl)
      simp only [setTerm, if_pos rfl, mlookup, hne, if_false]
      exact ih
    · simp only [setTerm, if_neg hk0, mlookup]
      by_cases hkk : k0 = k
      · simp [hkk]
      · simp only [hkk, if_false]
        exact ih

theorem mlookup_touch (body : List (String × Block)) (l : String) (k : String)
    (bb : Block) (h : mlookup body k = some bb) :
    mlookup (touch body l) k = some bb := by
  unfold touch
  split
  · exact h
  · exact mlookup_append_left body _ k bb h

/-! ## The entry block through the CFG scan -/

theorem cfgGo_entry_preserved (entry : String) (csInsts : List Inst) :
    ∀ (items : List TvItem) (cur : Option String)
      (body body' : List (String × Block)),
    (∀ it ∈ items, isConstItem it = false) →
    (∃ bb extra, mlookup body entry = some bb ∧
       bb.insts = csInsts ++ extra ∧ (∀ i ∈ extra, isConstInst i = false)) →
    cfgGo entry items cur body = .ok body' →
    ∃ bb extra, mlookup body' entry = some bb ∧
      bb.insts = csInsts ++ extra ∧ (∀ i ∈ extra, isConstInst i = false) := by
  intro items
  induction items with
  | nil =>
    intro cur body body' _ hin h
    cases h
    exact hin
  | cons it rest ih =>
    intro cur body body' hcf hin h
    have hcf' : ∀ it ∈ rest, isConstItem it = false :=
      fun x hx => hcf x (List.mem_cons_of_mem _ hx)
    obtain ⟨bb, extra, hbb, hinsts, hex⟩ := hin
    cases it with
    | label l =>
      exact ih _ _ _ hcf' ⟨bb, extra, mlookup_touch body l entry bb hbb, hinsts, hex⟩ h
    | inst i =>
      have hic : isConstInst i = false := by
        have := hcf (.inst i) (List.mem_cons_self _ _)
        rwa [isConstItem_inst] at this
      cases cur with
      | some l =>
        by_cases hl : entry = l
        · subst hl
          refine ih _ _ _ hcf' ⟨{ bb with insts := bb.insts ++ [i] }, extra ++ [i],
            mlookup_appendInst_self body entry i bb hbb, ?_, ?_⟩ h
          · simp [hinsts]
          · intro x hx
            rcases List.mem_append.1 hx with hm | hm
            · exact hex x hm
            · rwa [List.mem_singleton.1 hm]
        · refine ih _ _ _ hcf' ⟨bb, extra, ?_, hinsts, hex⟩ h
          rw [mlookup_appendInst_ne body l i entry hl]
          exact hbb
      | none =>
        rw [cfgGo] at h
        split at h
        · refine ih _ _ _ hcf' ⟨{ bb with insts := bb.insts ++ [i] }, extra ++ [i],
            mlookup_appendInst_self body entry i bb hbb, ?_, ?_⟩ h
          · simp [hinsts]
          · intro x hx
            rcases List.mem_append.1 hx with hm | hm
            · exact hex x hm
            · rwa [List.mem_singleton.1 hm]
        · exact absurd h (by simp)
    | term t =>
      cases cur with
      | some l =>
        by_cases hl : entry = l
        · subst hl
          exact ih _ _ _ hcf' ⟨{ bb with term := t }, extra,
            mlookup_setTerm_self body entry t bb hbb, hinsts, hex⟩ h
        · refine ih _ _ _ hcf' ⟨bb, extra, ?_, hinsts, hex⟩ h
          rw [mlookup_setTerm_ne body l t entry hl]
          exact hbb
      | none => exact ih _ _ _ hcf' ⟨bb, extra, hbb, hinsts, hex⟩ h

theorem cfgGo_consts (entry : String) :
    ∀ (cs : List (String × Int)) (rest : List TvItem) (insts : List Inst) (t : Term),
    cfgGo entry (cs.map (fun p => TvItem.inst (.const p.1 p.2)) ++ rest)
        (some entry) [(entry, ⟨entry, insts, t⟩)] =
      cfgGo entry rest (some entry)
        [(entry, ⟨entry, insts ++ cs.map (fun p => Inst.const p.1 p.2), t⟩)] := by
  intro cs
  induction cs with
  | nil => intro rest insts t; simp
  | cons c cs ih =>
    intro rest insts t
    simp only [List.map_cons, List.cons_append, cfgGo]
    have happ : appendInst [(entry, ⟨entry, insts, t⟩)] entry (.const c.1 c.2) =
        [(entry, ⟨entry, insts ++ [Inst.const c.1 c.2], t⟩)] := by
      simp [appendInst]
    rw [happ]
    simp only [List.append_eq]
    rw [ih]
    simp

theorem short_ne_const (k : String) (hlen : k.length < 7) :
    ∀ s, k ≠ "_const_" ++ s := by
  intro s he
  have hl := congrArg String.length he
  rw [String.length_append] at hl
  have h7 : "_const_".length = 7 := rfl
  omega

/-- C7: per-function constant discipline.  `const_var` creates the
`_const_<n>` local (type `Int`) exactly on first use, inserting the
defining `Const` at `const_insert_pos` (initialized to 1, advanced after
each insertion), and returns the cached name with no insertion on later
uses.  In the translation vector of any successfully lowered function the
`Const` instructions sit contiguously right after the entry label, with
pairwise-distinct `_const_*` names, in insertion (first-use) order, and no
`Const` occurs anywhere else; every `_const_*` local has its unique
defining `Const`, and in the built CFG the entry block starts with exactly
these `Const` instructions, every later entry-block instruction being a
non-`Const`. -/
theorem c7_constant_discipline (ctx : Ctx) (fuel : Nat) (fname : String)
    (body : Stmt) (locals0 : List (String × LTy))
    (tv : List TvItem) (cfg : List (String × Block)) (locs : List (String × LTy))
    (hinit : ∀ p ∈ locals0, ∀ s, p.1 ≠ "_const_" ++ s)
    (h : lowerFunction ctx fuel fname body locals0 = .ok (tv, cfg, locs)) :
    (∀ n st, (mlookup st.locals (constName n)).isSome →
      const_var n st = (constName n, st)) ∧
    (∀ n st, mlookup st.locals (constName n) = none →
      const_var n st = (constName n,
        { st with locals := minsert st.locals (constName n) .int,
                  tv := st.tv.insertIdx st.constPos (.inst (.const (constName n) n)),
                  constPos := st.constPos + 1 })) ∧
    ∃ cs : List (String × Int), ∃ rest : List TvItem,
      tv = .label (fname ++ "_entry") ::
        cs.map (fun p => TvItem.inst (.const p.1 p.2)) ++ rest ∧
      (∀ it ∈ rest, isConstItem it = false) ∧
      (cs.map Prod.fst).Nodup ∧
      (∀ p ∈ cs, p.1 = constName p.2 ∧ mlookup locs p.1 = some .int) ∧
      (∀ k, (mlookup locs k).isSome → (∃ s, k = "_const_" ++ s) →
        k ∈ cs.map Prod.fst) ∧
      ∃ bb extra, mlookup cfg (fname ++ "_entry") = some bb ∧
        bb.insts = cs.map (fun p => Inst.const p.1 p.2) ++ extra ∧
        (∀ i ∈ extra, isConstInst i = false) := by
  refine ⟨?_, ?_, ?_⟩
  · intro n st hl
    unfold const_var
    rw [if_pos hl]
  · intro n st hl
    unfold const_var
    rw [if_neg (by simp [hl])]
  · unfold lowerFunction at h
    cases hst : lowerStmt ctx fuel body (initSt fname locals0) with
    | error e => rw [hst] at h; exact absurd h (by simp)
    | ok st1 =>
      rw [hst] at h
      dsimp only at h
      have hInv0 : ConstInv (fname ++ "_entry") locals0 (initSt fname locals0) := by
        refine ⟨[], [], by simp [initSt], by simp, rfl, by simp, by simp, ?_⟩
        intro k hk
        exact Or.inl hk
      have hInv1 : ConstInv (fname ++ "_entry") locals0 st1 := by
        have hr := lowerStmt_resok (fname ++ "_entry") locals0 ctx fuel body
          (initSt fname locals0)
        rw [hst] at hr
        exact hr hInv0
      obtain ⟨cs, rest, h1, h2, h3, h4, h5, h6⟩ := hInv1
      have hconst : ∀ (rest2 : List TvItem),
          (∀ it ∈ rest2, isConstItem it = false) →
          ∀ cfg2, build_cfg fname (TvItem.label (fname ++ "_entry") ::
              cs.map (fun p => TvItem.inst (.const p.1 p.2)) ++ rest2) = .ok cfg2 →
          ∃ bb extra, mlookup cfg2 (fname ++ "_entry") = some bb ∧
            bb.insts = cs.map (fun p => Inst.const p.1 p.2) ++ extra ∧
            (∀ i ∈ extra, isConstInst i = false) := by
        intro rest2 hr2 cfg2 hc
        have hc2 : cfgGo (fname ++ "_entry")
            (cs.map (fun p => TvItem.inst (.const p.1 p.2)) ++ rest2)
            (some (fname ++ "_entry"))
            [(fname ++ "_entry", ⟨fname ++ "_entry", [], Term.undef⟩)] =
            .ok cfg2 := hc
        rw [cfgGo_consts] at hc2
        refine cfgGo_entry_preserved (fname ++ "_entry")
          (cs.map (fun p => Inst.const p.1 p.2)) rest2 (some (fname ++ "_entry"))
          _ cfg2 hr2 ⟨⟨fname ++ "_entry", [] ++ cs.map (fun p => Inst.const p.1 p.2),
            Term.undef⟩, [], ?_, by simp, by simp⟩ hc2
        simp [mlookup]
      have hlocs : ∀ (hlocseq : locs = st1.locals),
          (∀ p ∈ cs, p.1 = constName p.2 ∧ mlookup locs p.1 = some .int) ∧
          (∀ k, (mlookup locs k).isSome → (∃ s, k = "_const_" ++ s) →
            k ∈ cs.map Prod.fst) := by
        intro hlocseq
        subst hlocseq
        refine ⟨h5, ?_⟩
        intro k hk hks
        obtain ⟨s, hs⟩ := hks
        rcases h6 k hk with hc | hc | hc | hc
        · obtain ⟨v, hmem⟩ := mlookup_isSome_mem locals0 k hc
          exact absurd hs (hinit (k, v) hmem s)
        · exact hc
        · obtain ⟨s2, hs2⟩ := hc
          exact absurd (hs2 ▸ hs) (tmp_ne_const s2 s)
        · obtain ⟨s2, hs2⟩ := hc
          exact absurd (hs2 ▸ hs) (inner_ne_const s2 s)
      rw [hasRetScan_eq_endsInRetSpec] at h
      cases hsc : endsInRetSpec st1.tv with
      | true =>
        rw [hsc] at h
        simp only [if_true, ite_true, reduceIte] at h
        cases hc : build_cfg fname st1.tv with
        | error e => rw [hc] at h; exact absurd h (by simp)
        | ok cfg2 =>
          rw [hc] at h
          dsimp only at h
          have hok := Except.ok.inj h
          have he1 : st1.tv = tv := congrArg (fun r => r.1) hok
          have he2 : cfg2 = cfg := congrArg (fun r => r.2.1) hok
          have he3 : st1.locals = locs := congrArg (fun r => r.2.2) hok
          obtain ⟨hcls, hbb⟩ := hlocs he3.symm
          refine ⟨cs, rest, ?_, h2, h4, hcls, hbb, ?_⟩
          · rw [← he1, h1]
          · rw [← he2]
            exact hconst rest h2 cfg2 (by rw [← h1]; exact hc)
      | false =>
        rw [hsc] at h
        simp only [if_false, ite_false, Bool.false_eq_true, reduceIte] at h
        cases hc : build_cfg fname (st1.tv ++ [.term (.ret none)]) with
        | error e => rw [hc] at h; exact absurd h (by simp)
        | ok cfg2 =>
          rw [hc] at h
          dsimp only at h
          have hok := Except.ok.inj h
          have he1 : st1.tv ++ [TvItem.term (.ret none)] = tv :=
            congrArg (fun r => r.1) hok
          have he2 : cfg2 = cfg := congrArg (fun r => r.2.1) hok
          have he3 : st1.locals = locs := congrArg (fun r => r.2.2) hok
          obtain ⟨hcls, hbb⟩ := hlocs he3.symm
          refine ⟨cs, rest ++ [.term (.ret none)], ?_, ?_, h4, hcls, hbb, ?_⟩
          · rw [← he1, h1]
            simp
          · intro it hit
            rcases List.mem_append.1 hit with hm | hm
            · exact h2 it hm
            · rw [List.mem_singleton.1 hm]; rfl
          · rw [← he2]
            refine hconst (rest ++ [.term (.ret none)]) ?_ cfg2 ?_
            · intro it hit
              rcases List.mem_append.1 hit with hm | hm
              · exact h2 it hm
              · rw [List.mem_singleton.1 hm]; rfl
            · rw [show TvItem.label (fname ++ "_entry") ::
                  cs.map (fun p => TvItem.inst (.const p.1 p.2)) ++
                    (rest ++ [TvItem.term (.ret none)]) =
                  (TvItem.label (fname ++ "_entry") ::
                    cs.map (fun p => TvItem.inst (.const p.1 p.2)) ++ rest) ++
                    [TvItem.term (.ret none)] by simp]
              rw [← h1]
              exact hc

theorem c7_constant_discipline_witness :
    ∃ tv cfg locs,
      lowerFunction ctx0 20 "main" (.seq c7stmts)
        [("x", LTy.int), ("y", LTy.int)] = .ok (tv, cfg, locs) ∧
      (∃ cs : List (String × Int), ∃ rest : List TvItem,
        tv = .label "main_entry" ::
          cs.map (fun p => TvItem.inst (.const p.1 p.2)) ++ rest ∧
        (∀ it ∈ rest, isConstItem it = false) ∧
        (cs.map Prod.fst).Nodup ∧
        (∀ p ∈ cs, p.1 = constName p.2 ∧ mlookup locs p.1 = some .int) ∧
        (∀ k, (mlookup locs k).isSome → (∃ s, k = "_const_" ++ s) →
          k ∈ cs.map Prod.fst) ∧
        ∃ bb extra, mlookup cfg "main_entry" = some bb ∧
          bb.insts = cs.map (fun p => Inst.const p.1 p.2) ++ extra ∧
          (∀ i ∈ extra, isConstInst i = false)) := by
  refine ⟨_, _, _, rfl, ?_⟩
  have hinit : ∀ p ∈ [("x", LTy.int), ("y", LTy.int)],
      ∀ s, p.1 ≠ "_const_" ++ s := by
    intro p hp
    rcases List.mem_cons.1 hp with hp1 | hp1
    · subst hp1; exact short_ne_const "x" (by decide)
    · rw [List.mem_singleton.1 hp1]
      exact short_ne_const "y" (by decide)
  exact (c7_constant_discipline ctx0 20 "main" (.seq c7stmts)
    [("x", LTy.int), ("y", LTy.int)] _ _ _ hinit rfl).2.2

/-- C10: lowering an `Id` place raises the Id-as-place error; `Assign`
with an `Id` left-hand side takes the `Copy` path without consulting the
place judgment, and `Val` of an `Id` returns the name directly; hence no
statement or expression lowering ever produces the Id-as-place error —
only Deref, ArrayAccess and FieldAccess places reach the place judgment. -/
theorem c10_id_place_unreachable (ctx : Ctx) :
    (∀ (F : Exp → LSt → Except Err (String × LSt)) (nm : String) (st : LSt),
      lower_place ctx F (.id nm) st = .error .idAsPlace) ∧
    (∀ fuel nm rhs st, lowerStmt ctx (fuel + 1) (.assign (.id nm) rhs) st =
      (match lowerExp ctx fuel rhs st with
       | .error e => .error e
       | .ok (x, st1) => .ok (pushI (.copy nm x) st1))) ∧
    (∀ fuel nm st, lowerExp ctx (fuel + 1) (.val (.id nm)) st = .ok (nm, st)) ∧
    (∀ fuel s st er, lowerStmt ctx fuel s st = .error er → er ≠ .idAsPlace) ∧
    (∀ fuel e st er, lowerExp ctx fuel e st = .error er → er ≠ .idAsPlace) := by
  refine ⟨fun F nm st => rfl, fun fuel nm rhs st => rfl, fun fuel nm st => rfl,
    ?_, ?_⟩
  · intro fuel s st er h
    have := lowerStmt_resok "" [] ctx fuel s st
    rw [h] at this
    exact this
  · intro fuel e st er h
    have := lowerExp_resok "" [] ctx fuel e st
    rw [h] at this
    exact this

theorem c10_id_place_unreachable_witness :
    lower_place ctx0 (lowerExp ctx0 3) (.id "x") (initSt "m" []) =
      .error .idAsPlace ∧
    Err.breakOutsideLoop ≠ Err.idAsPlace ∧
    Err.outOfFuel ≠ Err.idAsPlace :=
  ⟨(c10_id_place_unreachable ctx0).1 (lowerExp ctx0 3) "x" (initSt "m" []),
   (c10_id_place_unreachable ctx0).2.2.2.1 1 .brk (initSt "m" [])
     .breakOutsideLoop rfl,
   (c10_id_place_unreachable ctx0).2.2.2.2 0 .nilE (initSt "m" [])
     .outOfFuel rfl⟩

/-! ## The funptrs table (claim C8) -/

theorem buildFunptrs_step_main_absent (fns : List AFun)
    (acc : List (String × LTy)) (h : mlookup acc "main" = none) :
    mlookup (fns.foldl (fun m f =>
      if f.name = "main" then m else minsert m f.name (funptrType f)) acc) "main" =
      none := by
  induction fns generalizing acc with
  | nil => exact h
  | cons f fns ih =>
    simp only [List.foldl_cons]
    by_cases hf : f.name = "main"
    · rw [if_pos hf]; exact ih acc h
    · rw [if_neg hf]
      exact ih _ (by rw [mlookup_minsert_ne _ _ _ _ (fun he => hf he.symm)]; exact h)

theorem buildFunptrs_step_preserved (fns : List AFun)
    (acc : List (String × LTy)) (k : String) (hk : k ∉ fns.map AFun.name) :
    mlookup (fns.foldl (fun m f =>
      if f.name = "main" then m else minsert m f.name (funptrType f)) acc) k =
      mlookup acc k := by
  induction fns generalizing acc with
  | nil => rfl
  | cons f fns ih =>
    simp only [List.map_cons, List.mem_cons, not_or] at hk
    obtain ⟨hk1, hk2⟩ := hk
    simp only [List.foldl_cons]
    by_cases hf : f.name = "main"
    · rw [if_pos hf]; exact ih acc hk2
    · rw [if_neg hf]
      rw [ih _ hk2, mlookup_minsert_ne _ _ _ _ hk1]

theorem buildFunptrs_step_found (fns : List AFun)
    (acc : List (String × LTy)) (f : AFun)
    (hnd : (fns.map AFun.name).Nodup) (hmem : f ∈ fns) (hf : f.name ≠ "main") :
    mlookup (fns.foldl (fun m g =>
      if g.name = "main" then m else minsert m g.name (funptrType g)) acc) f.name =
      some (funptrType f) := by
  induction fns generalizing acc with
  | nil => cases hmem
  | cons g fns ih =>
    simp only [List.map_cons, List.nodup_cons] at hnd
    obtain ⟨hg, hnd'⟩ := hnd
    simp only [List.foldl_cons]
    rcases List.mem_cons.1 hmem with heq | hmem'
    · subst heq
      rw [if_neg hf]
      rw [buildFunptrs_step_preserved fns _ f.name hg, mlookup_minsert_self]
    · exact ih _ hnd' hmem'

/-- C8: after the program shell is built, `funptrs` never contains the key
`main`, and (given the upstream no-duplicate-names guarantee) maps every
other internal function name to `Ptr(Fn(param_types, ret_type))` built
from its converted parameter and return types. -/
theorem c8_funptrs_table (p : AProg) :
    mlookup (buildFunptrs p.functions) "main" = none ∧
    ((p.functions.map AFun.name).Nodup →
      ∀ f ∈ p.functions, f.name ≠ "main" →
        mlookup (buildFunptrs p.functions) f.name =
          some (.ptr (.fn (convert_types (f.params.map Prod.snd))
            (convert_type f.rettyp)))) :=
  ⟨buildFunptrs_step_main_absent p.functions [] rfl,
   fun hnd f hmem hf => buildFunptrs_step_found p.functions [] f hnd hmem hf⟩

theorem c8_funptrs_table_witness :
    mlookup (buildFunptrs c8funs) "main" = none ∧
    mlookup (buildFunptrs c8funs) "foo" = some (.ptr (.fn [.int] .int)) :=
  ⟨(c8_funptrs_table ⟨[], [], c8funs⟩).1,
   (c8_funptrs_table ⟨[], [], c8funs⟩).2 (by simp [c8funs])
     ⟨"foo", [("p", .int)], .int, [], .seq []⟩
     (by simp [c8funs]) (by simp)⟩

end LowerLIR
